import Mathlib

/-!
Verification of the duplicate-image-finder backend (`image_processor.py`,
`api_server.py`) against its natural-language specification.

The Python code is shallowly embedded: pure computations become Lean
functions, filesystem and face-recognition library calls become explicit
environment records (oracles) passed to the functions, and mutable state
(`known_faces`, `person_counter`, the destination tree) is threaded
explicitly.  Unbounded `while` loops (the destination-name collision loops)
are modelled with fuel; exhausting the fuel models divergence of the Python
loop and surfaces as `Option.none`.
-/

namespace DupImg

/-! ## Generic helpers -/

/-- Association-list lookup with decidable equality on `String` keys,
modelling a `path -> file content` view of a directory tree. -/
def lookupA (p : String) : List (String × Nat) → Option Nat
  | [] => none
  | (q, c) :: rest => if q = p then some c else lookupA p rest

/-- Remove the first binding of a key from an association list
(modelling deletion of a file from the tree). -/
def removeA (p : String) : List (String × Nat) → List (String × Nat)
  | [] => []
  | (q, c) :: rest => if q = p then rest else (q, c) :: removeA p rest

/-- Insert a directory path if it is not already present, modelling
`mkdir(exist_ok=True)` / `mkdir(parents=True, exist_ok=True)`. -/
def insertDir (d : String) (l : List String) : List String :=
  if d ∈ l then l else d :: l

/-! ## String primitives

Python's `str.upper` / `str.lower` (on the ASCII extension strings in
play) and `str.endswith` are modelled on the character list of the Lean
`String`, so that they compute by kernel reduction. -/

/-- ASCII lowercasing of one character (`str.lower` on ASCII). -/
def lowChar (c : Char) : Char :=
  if 65 ≤ c.toNat ∧ c.toNat ≤ 90 then Char.ofNat (c.toNat + 32) else c

/-- ASCII uppercasing of one character (`str.upper` on ASCII). -/
def upChar (c : Char) : Char :=
  if 97 ≤ c.toNat ∧ c.toNat ≤ 122 then Char.ofNat (c.toNat - 32) else c

/-- `s.lower()` on ASCII strings. -/
def strLower (s : String) : String := ⟨s.data.map lowChar⟩

/-- `s.upper()` on ASCII strings. -/
def strUpper (s : String) : String := ⟨s.data.map upChar⟩

/-- Character equality through the code point. -/
def charEqb (a b : Char) : Bool := a.toNat == b.toNat

/-- Character-list equality. -/
def listCharEq : List Char → List Char → Bool
  | [], [] => true
  | a :: as, b :: bs => charEqb a b && listCharEq as bs
  | _, _ => false

/-- `s.endswith(pat)`. -/
def strEndsWith (s pat : String) : Bool :=
  Nat.ble pat.data.length s.data.length
    && listCharEq (s.data.drop (s.data.length - pat.data.length)) pat.data

/-! ## File Enumerator (`ImageProcessor.get_image_files`) -/

/-- A filesystem path, as its list of components. -/
abbrev FPath := List String

/-- An abstract filesystem for the enumerator: the existing directories and
the existing regular files, with files listed in traversal order. -/
structure EnumFS where
  dirs : List FPath
  files : List FPath
deriving DecidableEq

/-- The extension allowlist `self.supported_formats`, in source order.
(The source stores it as a Python `set`; set iteration order only affects
the order of the returned list, which no claim depends on.) -/
def supported_formats : List String :=
  [".jpg", ".jpeg", ".png", ".bmp", ".gif", ".tiff", ".webp"]

/-- `d leadsTo p`: path `p` lies strictly below directory `d`. -/
def leadsTo : FPath → FPath → Bool
  | [], [] => false
  | [], _ :: _ => true
  | _ :: _, [] => false
  | a :: as, b :: bs => a == b && leadsTo as bs

/-- The final component (file name) of a path. -/
def lastComponent (p : FPath) : String :=
  (p.getLast?).getD ""

/-- `source_dir.rglob(f'*{pat}')`: every file strictly below `d` whose name
ends with `pat` (`*` matches any, possibly empty, leading part). -/
def rglob (fs : EnumFS) (d : FPath) (pat : String) : List FPath :=
  fs.files.filter (fun p => leadsTo d p && strEndsWith (lastComponent p) pat)

/-- `ImageProcessor.get_image_files`: for each source directory that exists,
for each supported extension, extend the list with `rglob(f'*{ext}')` and
`rglob(f'*{ext.upper()}')`.  Non-existent directories are skipped by the
`continue`. -/
def get_image_files (fs : EnumFS) (source_dirs : List FPath) : List FPath :=
  source_dirs.foldl
    (fun acc d =>
      if fs.dirs.contains d then
        supported_formats.foldl
          (fun acc2 ext => acc2 ++ rglob fs d ext ++ rglob fs d (strUpper ext))
          acc
      else acc)
    []

/-- Modelled from the claim's words, for comparison with the source: a file
name matches the allowlist case-insensitively when its lowercased form ends
with one of the allowlisted extensions. -/
def matchesAllowlistCI (name : String) : Bool :=
  supported_formats.any (fun e => strEndsWith (strLower name) e)

/-- Concrete filesystem: one existing source directory `d` holding one
file `a.Jpg`, whose mixed-case extension matches the allowlist
case-insensitively. -/
def fsC4 : EnumFS := ⟨[["d"]], [["d", "a.Jpg"]]⟩

/-- Concrete filesystem: one existing source directory `d` holding one
file `a.jpg`. -/
def fsC4b : EnumFS := ⟨[["d"]], [["d", "a.jpg"]]⟩

/-! ## Duplicate Grouper (`ImageProcessor.find_duplicates`)

Image files are abstract identifiers (`Nat`).  The filesystem and image
decoding are an oracle `DupEnv`: `calculate_md5_hash` may fail (`none`), as
may `calculate_image_hashes` and `get_image_resolution`, exactly as the
source's `try/except` blocks return `None`. -/

/-- A perceptual hash: a bit signature whose difference operator is the
Hamming distance (`imagehash.ImageHash.__sub__`). -/
abbrev PHash := List Bool

/-- Hamming distance between two bit signatures. -/
def hamming : PHash → PHash → Nat
  | [], _ => 0
  | _ :: _, [] => 0
  | a :: as, b :: bs => (if a = b then 0 else 1) + hamming as bs

/-- The record returned by `calculate_image_hashes`. -/
structure ImgHashes where
  phash : PHash
  dhash : PHash
  whash : PHash
  size : Nat
  width : Nat
  height : Nat
  pixels : Nat
deriving DecidableEq

/-- Oracle for per-file hashing and decoding: `md5 f = none` models an
unreadable file, `hashes f = none` an undecodable one. -/
structure DupEnv where
  md5 : Nat → Option String
  hashes : Nat → Option ImgHashes
  res : Nat → Option (Nat × Nat × Nat)

/-- `md5_to_files[h].append(f)` on a `defaultdict(list)`: append `f` to the
bucket of key `h`, creating the bucket at the end on first use (Python
dicts preserve key insertion order). -/
def addMd5 (h : String) (f : Nat) : List (String × List Nat) → List (String × List Nat)
  | [] => [(h, [f])]
  | (k, fs) :: rest =>
    if k = h then (k, fs ++ [f]) :: rest else (k, fs) :: addMd5 h f rest

/-- Step 1 of `find_duplicates`: bucket the input files by MD5 digest,
skipping files whose digest computation failed. -/
def md5Buckets (env : DupEnv) (files : List Nat) : List (String × List Nat) :=
  files.foldl
    (fun b f => match env.md5 f with | some h => addMd5 h f b | none => b) []

/-- `exact_duplicates`: the buckets holding more than one file. -/
def exact_duplicates (env : DupEnv) (files : List Nat) : List (String × List Nat) :=
  (md5Buckets env files).filter (fun kv => 1 < kv.2.length)

/-- `exact_files`: every file sitting in some exact group. -/
def exactFiles (env : DupEnv) (files : List Nat) : List Nat :=
  (exact_duplicates env files).foldl (fun acc kv => acc ++ kv.2) []

/-- `image_hashes[f] = h`: insert into an insertion-ordered dict (an
existing key keeps its position and has its value overwritten). -/
def addHash (f : Nat) (h : ImgHashes) : List (Nat × ImgHashes) → List (Nat × ImgHashes)
  | [] => [(f, h)]
  | (g, hg) :: rest =>
    if g = f then (g, h) :: rest else (g, hg) :: addHash f h rest

/-- The `image_hashes` dict: every input file whose perceptual hashes could
be computed, in input order. -/
def imageHashes (env : DupEnv) (files : List Nat) : List (Nat × ImgHashes) :=
  files.foldl
    (fun acc f => match env.hashes f with | some h => addHash f h acc | none => acc) []

/-- Sum of a list of booleans as Python's `sum([...])` over `bool`s. -/
def boolSum (l : List Bool) : Nat :=
  l.foldl (fun n b => n + (if b then 1 else 0)) 0

/-- The join condition of the similarity pass, verbatim from the source:
all three differences within threshold, OR at least two of the three
within threshold. -/
def joinCond (t : Nat) (h1 h2 : ImgHashes) : Bool :=
  let phash_diff := hamming h1.phash h2.phash
  let dhash_diff := hamming h1.dhash h2.dhash
  let whash_diff := hamming h1.whash h2.whash
  (decide (phash_diff ≤ t) && decide (dhash_diff ≤ t) && decide (whash_diff ≤ t))
    || decide (2 ≤ boolSum [decide (phash_diff ≤ t), decide (dhash_diff ≤ t),
        decide (whash_diff ≤ t)])

/-- The inner loop of the similarity pass: scan every dict entry, skip the
already-processed ones and the seed itself, and append to the seed's group
each file whose hashes satisfy `joinCond` against the seed's hashes. -/
def buildGroup (t : Nat) (seed : Nat) (h1 : ImgHashes) :
    List (Nat × ImgHashes) → List Nat → List Nat → List Nat × List Nat
  | [], group, processed => (group, processed)
  | (f, h2) :: rest, group, processed =>
    if f ∈ processed ∨ seed = f then buildGroup t seed h1 rest group processed
    else if joinCond t h1 h2 then
      buildGroup t seed h1 rest (group ++ [f]) (f :: processed)
    else buildGroup t seed h1 rest group processed

/-- The outer loop of the similarity pass: each not-yet-processed entry
seeds a group; the group is kept only if it has more than one member, but
its members are marked processed either way. -/
def similarLoop (t : Nat) (allItems : List (Nat × ImgHashes)) :
    List (Nat × ImgHashes) → List (List Nat) → List Nat → List (List Nat) × List Nat
  | [], groups, processed => (groups, processed)
  | (f, h1) :: rest, groups, processed =>
    if f ∈ processed then similarLoop t allItems rest groups processed
    else
      let gp := buildGroup t f h1 allItems [f] (f :: processed)
      similarLoop t allItems rest
        (if 1 < gp.1.length then groups ++ [gp.1] else groups) gp.2

/-- `similar_groups`: the greedy single-pass clustering of step 2. -/
def similar_groups (env : DupEnv) (t : Nat) (files : List Nat) : List (List Nat) :=
  let items := imageHashes env files
  (similarLoop t items items [] []).1

/-- The kind tag of a returned duplicate group. -/
inductive GKind
  | exact
  | similar
deriving DecidableEq

/-- One value of the `all_duplicates` mapping (the `group_{i}` keys are the
list positions). -/
structure GroupData where
  files : List Nat
  resolutions : List (Nat × (Nat × Nat × Nat))
  type : GKind
deriving DecidableEq

/-- The per-group resolution map: files whose resolution probe fails are
left out. -/
def mkResolutions (env : DupEnv) (files : List Nat) : List (Nat × (Nat × Nat × Nat)) :=
  files.foldl
    (fun acc f => match env.res f with | some r => acc ++ [(f, r)] | none => acc) []

/-- `ImageProcessor.find_duplicates`: exact groups first, then every
similar group none of whose members belongs to an exact group. -/
def find_duplicates (env : DupEnv) (t : Nat) (files : List Nat) : List GroupData :=
  let exacts := exact_duplicates env files
  let exFiles := exactFiles env files
  let sims := similar_groups env t files
  exacts.map (fun kv => ⟨kv.2, mkResolutions env kv.2, GKind.exact⟩)
    ++ (sims.filter (fun g => ¬ g.any (fun f => f ∈ exFiles))).map
        (fun g => ⟨g, mkResolutions env g, GKind.similar⟩)

/-- Modelled from the claim's words, for comparison with the source:
the similarity pass run only over the files not already placed in an
exact group. -/
def similarGroupsOverNonExact (env : DupEnv) (t : Nat) (files : List Nat) :
    List (List Nat) :=
  similar_groups env t (files.filter (fun f => ¬ f ∈ exactFiles env files))

/-- The processor configuration defaults of `ImageProcessor.__init__`. -/
structure ProcessorCfg where
  hash_threshold : Nat := 5
  use_cnn : Bool := true

/-- A processor built with the constructor defaults. -/
def defaultCfg : ProcessorCfg := {}

/-- A hash record whose perceptual distance to itself (and to any copy) is
zero on all three algorithms. -/
def h0 : ImgHashes := ⟨[], [], [], 0, 0, 0, 0⟩

/-- Concrete grouping oracle: files 1 and 2 share an MD5 digest, files 3
and 4 have distinct digests, and files 1, 3, 4 have identical perceptual
hashes (file 2 is undecodable). -/
def envC1 : DupEnv where
  md5 := fun f =>
    if f = 1 ∨ f = 2 then some "m"
    else if f = 3 then some "a"
    else if f = 4 then some "b" else none
  hashes := fun f => if f = 2 then none else if f ≤ 4 then some h0 else none
  res := fun _ => none

/-- Concrete grouping oracle with no readable digests and two perceptually
identical files. -/
def envGrp : DupEnv where
  md5 := fun _ => none
  hashes := fun f => if f ≤ 2 then some h0 else none
  res := fun _ => none

/-! ## Stable sorting (Python `list.sort(key=..., reverse=True)`)

Python's sort is stable; a stable sort with respect to a total preorder
has a unique result, so an insertion sort inserting later elements after
equal-key earlier ones models it exactly. -/

/-- Insert `x` (a later element) into an already-sorted list, after every
element that may stay ahead of it. -/
def insertStable {α : Type} (le : α → α → Bool) (x : α) : List α → List α
  | [] => [x]
  | y :: ys => if le y x then y :: insertStable le x ys else x :: y :: ys

/-- Stable sort with respect to the Boolean total preorder `le`. -/
def sortPy {α : Type} (le : α → α → Bool) (l : List α) : List α :=
  l.foldl (fun acc x => insertStable le x acc) []

/-- Descending lexicographic comparison on `(pixel_count, file_size)` sort
keys: `keyGe a b` holds when `a` may come before `b` in the
`reverse=True` order. -/
def keyGe (a b : Nat × Nat) : Bool :=
  decide (b.1 < a.1) || (decide (a.1 = b.1) && decide (b.2 ≤ a.2))

/-! ## Reporting (`api_server.find_duplicates` space-saved computation) -/

/-- Filesystem size oracle: `fexists` models `f.exists()` and `fsize`
models `f.stat().st_size`. -/
structure SizeEnv where
  fexists : Nat → Bool
  fsize : Nat → Nat

/-- `f.stat().st_size if f.exists() else 0`. -/
def liveSize (env : SizeEnv) (f : Nat) : Nat :=
  if env.fexists f then env.fsize f else 0

/-- `resolutions.get(f, (0, 0, 0))`. -/
def resGet (resolutions : List (Nat × (Nat × Nat × Nat))) (f : Nat) : Nat × Nat × Nat :=
  match resolutions with
  | [] => (0, 0, 0)
  | (g, r) :: rest => if g = f then r else resGet rest f

/-- One entry of the API server's `files_with_res`: `(f, res, file_size)`. -/
abbrev ApiEntry := Nat × (Nat × Nat × Nat) × Nat

/-- The sort key `(x[1][2], x[2])` (pixel count, then live file size). -/
def apiKey (x : ApiEntry) : Nat × Nat := (x.2.1.2.2, x.2.2)

/-- The `files_with_res` entry built for one file:
`(f, resolutions.get(f, (0,0,0)), live size)`. -/
def apiEntryOf (env : SizeEnv) (g : GroupData) (f : Nat) : ApiEntry :=
  (f, resGet g.resolutions f, liveSize env f)

/-- The API server's per-group `files_with_res`, sorted descending. -/
def apiSorted (env : SizeEnv) (g : GroupData) : List ApiEntry :=
  sortPy (fun a b => keyGe (apiKey a) (apiKey b)) (g.files.map (apiEntryOf env g))

/-- The space the API server counts for one group: the sizes of every
entry except the top-ranked one. -/
def apiGroupSpace (env : SizeEnv) (g : GroupData) : Nat :=
  ((apiSorted env g).drop 1).foldl (fun s x => s + x.2.2) 0

/-- `total_space` across all groups (`result['space_saved']`). -/
def api_space_saved (env : SizeEnv) (groups : List GroupData) : Nat :=
  groups.foldl (fun s g => s + apiGroupSpace env g) 0

/-- The entry the API server's ranking keeps (the top-ranked one). -/
def apiKept (env : SizeEnv) (g : GroupData) : Option ApiEntry :=
  (apiSorted env g).head?

/-! ## Resolver (`ImageProcessor.delete_duplicates`)

Files on the deletion path carry a directory, a stem and an extension
suffix, so that `dup_file.name`, `dup_file.stem` and `dup_file.suffix` are
expressible; the destination tree is an association list from rendered
path strings to file contents, plus a directory list. -/

/-- A concrete file path for the deletion/organization paths. -/
structure DPath where
  dir : String
  stem : String
  suffix : String
deriving DecidableEq

/-- `p.name` (stem plus suffix). -/
def DPath.name (p : DPath) : String := p.stem ++ p.suffix

/-- The rendered full path string. -/
def DPath.render (p : DPath) : String := p.dir ++ "/" ++ p.name

/-- A mutable filesystem state: existing directories, and files as
`rendered path -> content` bindings. -/
structure FSState where
  dirs : List String
  files : List (String × Nat)
deriving DecidableEq

/-- The `k`-th candidate destination name of the collision loop:
`name` first, then `f"{stem}_{counter}{suffix}"` for `counter = 1, 2, …`. -/
def destCand (folder stem suffix : String) : Nat → String
  | 0 => folder ++ "/" ++ stem ++ suffix
  | Nat.succ k => folder ++ "/" ++ stem ++ "_" ++ Nat.repr (k + 1) ++ suffix

/-- The `while dest.exists()` collision loop, with fuel: `none` models the
(unreachable in practice) divergence of the Python loop when every
candidate within the fuel exists. -/
def resolveDest (occ : List (String × Nat)) (folder stem suffix : String) :
    Nat → Nat → Option String
  | _, 0 => none
  | k, Nat.succ fuel =>
    if lookupA (destCand folder stem suffix k) occ = none then
      some (destCand folder stem suffix k)
    else resolveDest occ folder stem suffix (k + 1) fuel

/-- One group of the `duplicates` mapping handed to `delete_duplicates`
(after the API server converts it back from JSON). -/
structure DelGroup where
  files : List DPath
  resolutions : List (DPath × (Nat × Nat × Nat))
deriving DecidableEq

/-- `resolutions.get(f)` on the deletion path: `none` when absent. -/
def delResGet (resolutions : List (DPath × (Nat × Nat × Nat))) (f : DPath) :
    Option (Nat × Nat × Nat) :=
  match resolutions with
  | [] => none
  | (g, r) :: rest => if g = f then some r else delResGet rest f

/-- One entry of `files_with_res` on the deletion path:
`(f, width, height, pixels)`. -/
abbrev DelEntry := DPath × Nat × Nat × Nat

/-- `delete_duplicates` builds `(f, w, h, px)` from the resolution map,
defaulting to `(f, 0, 0, 0)`. -/
def delEntry (resolutions : List (DPath × (Nat × Nat × Nat))) (f : DPath) : DelEntry :=
  match delResGet resolutions f with
  | some (w, h, px) => (f, w, h, px)
  | none => (f, 0, 0, 0)

/-- The deletion sort key `(x[3], live file size)`. -/
def delKey (fsf : List (String × Nat)) (x : DelEntry) : Nat × Nat :=
  (x.2.2.2, match lookupA x.1.render fsf with | some c => c | none => 0)

/-- The sorted `files_with_res` of one deletion group. -/
def delSorted (fsf : List (String × Nat)) (g : DelGroup) : List DelEntry :=
  sortPy (fun a b => keyGe (delKey fsf a) (delKey fsf b))
    (g.files.map (delEntry g.resolutions))

/-- The per-group tail appended to `low_res_files` (every entry except the
top-ranked one). -/
def delLowRes (fsf : List (String × Nat)) (g : DelGroup) : List DPath :=
  ((delSorted fsf g).drop 1).map Prod.fst

/-- `low_res_files` accumulated over all groups. -/
def lowResFiles (fsf : List (String × Nat)) (groups : List DelGroup) : List DPath :=
  groups.foldl (fun acc g => acc ++ delLowRes fsf g) []

/-- One iteration of the deletion loop: move (with collision-safe naming)
or unlink one duplicate file, skipping the file on any error exactly as
the source's `try/except` does.  Returns `none` only if the collision loop
ran out of fuel. -/
def delStep (move_to_folder : Bool) (folder : Option String)
    (st : List DPath × FSState) (dup : DPath) : Option (List DPath × FSState) :=
  if move_to_folder then
    match folder with
    | none => some st
    | some d =>
      match resolveDest st.2.files d dup.stem dup.suffix 0 (st.2.files.length + 2) with
      | none => none
      | some dest =>
        match lookupA dup.render st.2.files with
        | none => some st
        | some c =>
          some (st.1 ++ [dup],
            ⟨st.2.dirs, (dest, c) :: removeA dup.render st.2.files⟩)
  else
    match lookupA dup.render st.2.files with
    | none => some st
    | some _ => some (st.1 ++ [dup], ⟨st.2.dirs, removeA dup.render st.2.files⟩)

/-- `duplicates_folder`: set in move mode when there is at least one
source directory (`if move_to_folder and self.source_dirs`). -/
def delFolder (move_to_folder : Bool) (source_dirs : List String) : Option String :=
  if move_to_folder ∧ source_dirs ≠ [] then
    some ((source_dirs.headD "") ++ "/_duplicates")
  else none

/-- The up-front `duplicates_folder.mkdir(exist_ok=True)`. -/
def delMkdir (move_to_folder : Bool) (source_dirs : List String) (fs : FSState) :
    FSState :=
  match delFolder move_to_folder source_dirs with
  | some d => ⟨insertDir d fs.dirs, fs.files⟩
  | none => fs

/-- `ImageProcessor.delete_duplicates`: create the `_duplicates` folder up
front in move mode, rank every group, and move or delete everything but
each group's top-ranked file.  Returns the `deleted_files` list and the
final filesystem state. -/
def delete_duplicates (move_to_folder : Bool) (source_dirs : List String)
    (duplicates : List DelGroup) (fs : FSState) : Option (List DPath × FSState) :=
  if lowResFiles (delMkdir move_to_folder source_dirs fs).files duplicates = [] then
    some ([], delMkdir move_to_folder source_dirs fs)
  else
    (lowResFiles (delMkdir move_to_folder source_dirs fs).files duplicates).foldlM
      (delStep move_to_folder (delFolder move_to_folder source_dirs))
      ([], delMkdir move_to_folder source_dirs fs)

/-! ## Face Clustering Engine and Organizer
(`detect_faces`, `get_face_encoding`, `identify_person`, `process_image`,
`organize_images`)

Images, face locations and embeddings are abstract handles (`Nat`); the
`face_recognition` library is an oracle `FaceEnv` whose calls may raise
(`Except.error`), and whose embedding distance is a rational so that the
`compare_faces` tolerance test `distance <= tolerance` is exact.  The
destination tree is an `FSState` threaded through the batch. -/

/-- `str(e)[:n]`: truncation to the first `n` characters. -/
def strTake (s : String) (n : Nat) : String := ⟨s.data.take n⟩

/-- Oracle for the face-recognition library and the copy destination:
`load` is `face_recognition.load_image_file`, `face_locations img model
upsample` one detector invocation, `face_encodings img loc` the encoder on
one face location, `dist` the embedding distance used by `compare_faces`,
`dlibOk` whether `import dlib` succeeds, `frTestErr` the outcome of the
preflight `face_locations` self-test, and `copyErr src dest` the outcome
of `shutil.copy2`. -/
structure FaceEnv where
  load : String → Except String Nat
  face_locations : Nat → String → Nat → Except String (List Nat)
  face_encodings : Nat → Nat → Except String (List Nat)
  dist : Nat → Nat → ℚ
  dlibOk : Bool
  frTestErr : Option String
  copyErr : String → String → Option String

/-- `self.face_model = 'cnn' if use_cnn else 'hog'`. -/
def face_model (cfg : ProcessorCfg) : String :=
  if cfg.use_cnn then "cnn" else "hog"

/-- `ImageProcessor.detect_faces`: primary detector, `hog` fallback, then
`hog` with upsampling; any exception inside the `try` yields `([], None)`. -/
def detect_faces (env : FaceEnv) (cfg : ProcessorCfg) (p : String) :
    List Nat × Option Nat :=
  match (do
    let image ← env.load p
    let locs ← env.face_locations image (face_model cfg) 1
    let locs ← if locs.isEmpty ∧ cfg.use_cnn
      then env.face_locations image "hog" 1 else pure locs
    let locs ← if locs.isEmpty
      then env.face_locations image "hog" 2 else pure locs
    return (locs, image) : Except String (List Nat × Nat)) with
  | Except.ok (locs, image) => (locs, some image)
  | Except.error _ => ([], none)

/-- `ImageProcessor.get_face_encoding`: first encoding if any; any
exception yields `None`. -/
def get_face_encoding (env : FaceEnv) (image loc : Nat) : Option Nat :=
  match env.face_encodings image loc with
  | Except.ok encodings => encodings.head?
  | Except.error _ => none

/-- The mutable clustering state: the `known_faces` insertion-ordered dict
and the `person_counter`. -/
structure PState where
  known_faces : List (String × Nat)
  person_counter : Nat
deriving DecidableEq

/-- `ImageProcessor.identify_person`: scan the known faces in insertion
order; `compare_faces([known], e, tolerance)[0]` is `dist known e ≤
tolerance`; the first match wins. -/
def identify_person (env : FaceEnv) (kf : List (String × Nat))
    (face_encoding : Nat) (tolerance : ℚ) : Option String :=
  match kf with
  | [] => none
  | (person_name, known) :: rest =>
    if env.dist known face_encoding ≤ tolerance then some person_name
    else identify_person env rest face_encoding tolerance

/-- The tolerance `0.5` passed by `process_image` (stricter than the
library default `0.6`). -/
def processTolerance : ℚ := mkRat 1 2

/-- `persons_in_image.add(name)`: a Python set, modelled as an
insertion-ordered duplicate-free list. -/
def insertSet (s : List String) (x : String) : List String :=
  if x ∈ s then s else s ++ [x]

/-- The per-face loop of `process_image`: encode, identify, or allocate
`Person_{counter+1}` storing the embedding as the new cluster's sole
representative; encoding failures are skipped silently. -/
def faceLoop (env : FaceEnv) (image : Nat) :
    List Nat → PState → List String → PState × List String
  | [], st, persons => (st, persons)
  | loc :: rest, st, persons =>
    match get_face_encoding env image loc with
    | none => faceLoop env image rest st persons
    | some face_encoding =>
      match identify_person env st.known_faces face_encoding processTolerance with
      | some person_name => faceLoop env image rest st (insertSet persons person_name)
      | none =>
        let c := st.person_counter + 1
        let person_name := "Person_" ++ Nat.repr c
        faceLoop env image rest
          ⟨st.known_faces ++ [(person_name, face_encoding)], c⟩
          (insertSet persons person_name)

/-- `ImageProcessor.process_image`: detect, per-face encode/identify,
aggregate the distinct person labels into the final folder label.  Every
callee catches its own exceptions, so the function is total (the source's
outer `try/except` and the caller's handler around it are unreachable). -/
def process_image (env : FaceEnv) (cfg : ProcessorCfg) (st : PState)
    (p : String) : String × PState :=
  match detect_faces env cfg p with
  | (face_locations, imageO) =>
    match imageO with
    | none => ("Not Detected Persons", st)
    | some image =>
      if face_locations.isEmpty then ("Not Detected Persons", st)
      else
        match faceLoop env image face_locations st [] with
        | (st2, persons) =>
          match persons with
          | [] => ("Not Detected Persons", st2)
          | [p1] => (p1, st2)
          | _ => ("Multiple Persons", st2)

/-- One input file of `organize_images`: its source path (the oracle key),
its name split into stem and suffix, and its content. -/
structure SrcFile where
  path : String
  stem : String
  suffix : String
  content : Nat
deriving DecidableEq

/-- `img_path.name`. -/
def SrcFile.name (f : SrcFile) : String := f.stem ++ f.suffix

/-- The aggregate result dict of `organize_images`. -/
structure OrgResult where
  processed : Nat
  total : Nat
  person_folders : Nat
  faces_detected : Nat
  no_faces : Nat
  errors : List String
deriving DecidableEq

/-- The running accumulator of the `organize_images` batch loop. -/
structure OrgAcc where
  st : PState
  fs : FSState
  processed : Nat
  faces_detected : Nat
  no_faces : Nat
  errors : List String
deriving DecidableEq

/-- One iteration of the `organize_images` batch loop: label the image,
update the statistics, create the label's folder, pick a collision-free
destination name, and copy (a copy failure is recorded but the image still
counts as processed).  `none` models divergence of the collision loop. -/
def orgStep (env : FaceEnv) (cfg : ProcessorCfg) (output_dir : String)
    (acc : OrgAcc) (f : SrcFile) : Option OrgAcc :=
  match process_image env cfg acc.st f.path with
  | (folder_name, st2) =>
    let faces2 := if folder_name ≠ "Not Detected Persons"
      then acc.faces_detected + 1 else acc.faces_detected
    let nf2 := if folder_name ≠ "Not Detected Persons"
      then acc.no_faces else acc.no_faces + 1
    let person_folder := output_dir ++ "/" ++ folder_name
    let dirs2 := insertDir person_folder acc.fs.dirs
    match resolveDest acc.fs.files person_folder f.stem f.suffix 0
        (acc.fs.files.length + 2) with
    | none => none
    | some dest =>
      match env.copyErr f.path dest with
      | some e =>
        some ⟨st2, ⟨dirs2, acc.fs.files⟩, acc.processed + 1, faces2, nf2,
          acc.errors ++ ["Error copying " ++ f.name ++ ": " ++ strTake e 100]⟩
      | none =>
        some ⟨st2, ⟨dirs2, (dest, f.content) :: acc.fs.files⟩,
          acc.processed + 1, faces2, nf2, acc.errors⟩

/-- `ImageProcessor.organize_images`: create the output directory, run the
dependency preflight (recording its errors), process every file in order,
and return the result dict together with the final clustering state and
destination tree. -/
def organize_images (env : FaceEnv) (cfg : ProcessorCfg) (output_dir : String)
    (image_files : List SrcFile) (st0 : PState) (fs0 : FSState) :
    Option (OrgResult × PState × FSState) :=
  match image_files.foldlM (orgStep env cfg output_dir)
      ⟨st0, ⟨insertDir output_dir fs0.dirs, fs0.files⟩, 0, 0, 0,
        (if env.dlibOk then []
          else ["dlib library not installed - face detection cannot work"])
        ++ (match env.frTestErr with
            | some e => ["face_recognition library error: "
                ++ ("face_recognition test failed: " ++ strTake e 200)]
            | none => [])⟩ with
  | none => none
  | some acc =>
    some (⟨acc.processed, image_files.length, acc.st.known_faces.length,
      acc.faces_detected, acc.no_faces, acc.errors⟩, acc.st, acc.fs)

/-- Concrete face oracle whose image loading always raises (detection
throws for every file) while everything else succeeds. -/
def envC2 : FaceEnv :=
  ⟨fun _ => Except.error "boom", fun _ _ _ => Except.ok [], fun _ _ => Except.ok [],
   fun _ _ => 0, true, none, fun _ _ => none⟩

/-- A concrete input file `a.jpg`. -/
def fC2 : SrcFile := ⟨"src/a.jpg", "a", ".jpg", 1⟩

/-- Concrete face oracle for the clustering-tolerance scenario: one face
per image with embedding 2; embedding 1 sits at distance exactly `0.5`
from the stored representative 10, embedding 2 at `0.51`. -/
def envC7 : FaceEnv where
  load := fun _ => Except.ok 5
  face_locations := fun _ _ _ => Except.ok [0]
  face_encodings := fun _ _ => Except.ok [2]
  dist := fun k e =>
    if k = 10 ∧ e = 1 then mkRat 1 2
    else if k = 10 ∧ e = 2 then mkRat 51 100
    else mkRat 2 1
  dlibOk := true
  frTestErr := none
  copyErr := fun _ _ => none

/-- Concrete face oracle: every image has two faces with distinct
never-matching embeddings, so every image is labelled
`"Multiple Persons"`. -/
def envC10 : FaceEnv where
  load := fun _ => Except.ok 5
  face_locations := fun _ _ _ => Except.ok [0, 1]
  face_encodings := fun _ loc => Except.ok [loc + 1]
  dist := fun _ _ => mkRat 2 1
  dlibOk := true
  frTestErr := none
  copyErr := fun _ _ => none

/-- A concrete input file `two.jpg` containing two faces. -/
def fC10 : SrcFile := ⟨"src/two.jpg", "two", ".jpg", 9⟩

/-- Concrete duplicate file `s/a.jpg` (the higher-resolution copy). -/
def dpA : DPath := ⟨"s", "a", ".jpg"⟩

/-- Concrete duplicate file `s/b.jpg` (the lower-resolution copy). -/
def dpB : DPath := ⟨"s", "b", ".jpg"⟩

/-- Concrete deletion group holding `dpA` (4 pixels) and `dpB`
(2 pixels). -/
def gC9 : DelGroup := ⟨[dpA, dpB], [(dpA, (1, 1, 4)), (dpB, (1, 1, 2))]⟩

/-- Concrete starting filesystem for the deletion scenario. -/
def fsC9 : FSState :=
  ⟨["s"], [("s/a.jpg", 10), ("s/b.jpg", 20), ("k", 5)]⟩

/-- Concrete group for the reporting scenario: three files of equal
resolution (100 pixels) and sizes 100, 200, 300 bytes. -/
def gC8 : GroupData :=
  ⟨[1, 2, 3], [(1, (10, 10, 100)), (2, (10, 10, 100)), (3, (10, 10, 100))],
    GKind.similar⟩

/-- Concrete size oracle: every file exists, file `f` has size `100 * f`. -/
def envC8 : SizeEnv := ⟨fun _ => true, fun f => 100 * f⟩

/-! ## Theorems -/

/-- Membership in one `rglob` listing. -/
theorem mem_rglob (fs : EnumFS) (d : FPath) (pat : String) (p : FPath) :
    p ∈ rglob fs d pat ↔
      p ∈ fs.files ∧ leadsTo d p = true ∧ strEndsWith (lastComponent p) pat = true := by
  simp [rglob, List.mem_filter, Bool.and_eq_true, and_assoc]

/-- Membership in the per-directory extension fold of `get_image_files`. -/
theorem enum_inner_mem (fs : EnumFS) (d : FPath) :
    ∀ (exts : List String) (acc : List FPath) (x : FPath),
      x ∈ exts.foldl
          (fun acc2 ext => acc2 ++ rglob fs d ext ++ rglob fs d (strUpper ext)) acc
        ↔ x ∈ acc ∨ ∃ e ∈ exts, x ∈ rglob fs d e ∨ x ∈ rglob fs d (strUpper e) := by
  intro exts
  induction exts with
  | nil => simp
  | cons e rest ih =>
    intro acc x
    rw [List.foldl_cons, ih]
    simp only [List.mem_append, List.mem_cons]
    constructor
    · rintro (((h | h) | h) | ⟨e2, he2, h⟩)
      · exact Or.inl h
      · exact Or.inr ⟨e, Or.inl rfl, Or.inl h⟩
      · exact Or.inr ⟨e, Or.inl rfl, Or.inr h⟩
      · exact Or.inr ⟨e2, Or.inr he2, h⟩
    · rintro (h | ⟨e2, he2 | he2, h⟩)
      · exact Or.inl (Or.inl (Or.inl h))
      · subst he2
        rcases h with h | h
        · exact Or.inl (Or.inl (Or.inr h))
        · exact Or.inl (Or.inr h)
      · exact Or.inr ⟨e2, he2, h⟩

/-- Membership in the directory fold of `get_image_files`. -/
theorem enum_outer_mem (fs : EnumFS) :
    ∀ (dirs : List FPath) (acc : List FPath) (x : FPath),
      x ∈ dirs.foldl
          (fun acc d =>
            if fs.dirs.contains d then
              supported_formats.foldl
                (fun acc2 ext => acc2 ++ rglob fs d ext ++ rglob fs d (strUpper ext))
                acc
            else acc) acc
        ↔ x ∈ acc ∨ ∃ d ∈ dirs, fs.dirs.contains d = true ∧
            ∃ e ∈ supported_formats, x ∈ rglob fs d e ∨ x ∈ rglob fs d (strUpper e) := by
  intro dirs
  induction dirs with
  | nil => simp
  | cons d rest ih =>
    intro acc x
    rw [List.foldl_cons]
    by_cases hd : fs.dirs.contains d
    · rw [if_pos hd, ih, enum_inner_mem]
      simp only [List.mem_cons]
      constructor
      · rintro ((h | ⟨e, he, h⟩) | ⟨d2, hd2, hc, he⟩)
        · exact Or.inl h
        · exact Or.inr ⟨d, Or.inl rfl, hd, e, he, h⟩
        · exact Or.inr ⟨d2, Or.inr hd2, hc, he⟩
      · rintro (h | ⟨d2, hd2 | hd2, hc, he⟩)
        · exact Or.inl (Or.inl h)
        · subst hd2
          exact Or.inl (Or.inr he)
        · exact Or.inr ⟨d2, hd2, hc, he⟩
    · rw [if_neg hd, ih]
      simp only [List.mem_cons]
      constructor
      · rintro (h | ⟨d2, hd2, hc, he⟩)
        · exact Or.inl h
        · exact Or.inr ⟨d2, Or.inr hd2, hc, he⟩
      · rintro (h | ⟨d2, hd2 | hd2, hc, he⟩)
        · exact Or.inl h
        · subst hd2
          exact absurd hc (by simpa using hd)
        · exact Or.inr ⟨d2, hd2, hc, he⟩

/-- C4 (counterexample): `a.Jpg` matches the allowlist case-insensitively
and lies under an existing source directory, yet `get_image_files` misses
it (only all-lowercase and all-uppercase extensions are globbed); and with
a repeated source directory the same path is returned twice, so the result
is not a deduplicated set. -/
theorem get_image_files_mixedcase_dup_cex :
    get_image_files fsC4 [["d"]] = []
    ∧ matchesAllowlistCI "a.Jpg" = true
    ∧ (["d"] ∈ fsC4.dirs ∧ ["d", "a.Jpg"] ∈ fsC4.files
        ∧ leadsTo ["d"] ["d", "a.Jpg"] = true)
    ∧ get_image_files fsC4b [["d"], ["d"]] = [["d", "a.jpg"], ["d", "a.jpg"]] := by
  decide

/-- C4 (amended claim theorem): `get_image_files` returns exactly the
files lying (recursively) under the existing source directories whose name
ends with an allowlisted extension in all-lowercase or all-uppercase form
(mixed-case extensions are not matched); non-existent source directories
are skipped silently, and the returned list may repeat a path when source
directories repeat or overlap. -/
theorem get_image_files_characterization (fs : EnumFS) (dirs : List FPath)
    (p : FPath) :
    p ∈ get_image_files fs dirs ↔
      ∃ d ∈ dirs, fs.dirs.contains d = true ∧ leadsTo d p = true ∧ p ∈ fs.files ∧
        ∃ e ∈ supported_formats,
          (strEndsWith (lastComponent p) e = true
            ∨ strEndsWith (lastComponent p) (strUpper e) = true) := by
  unfold get_image_files
  rw [enum_outer_mem]
  simp only [List.not_mem_nil, false_or, mem_rglob]
  constructor
  · rintro ⟨d, hd, hc, e, he, ⟨hf, hl, hew⟩ | ⟨hf, hl, hew⟩⟩
    · exact ⟨d, hd, hc, hl, hf, e, he, Or.inl hew⟩
    · exact ⟨d, hd, hc, hl, hf, e, he, Or.inr hew⟩
  · rintro ⟨d, hd, hc, hl, hf, e, he, he2 | he2⟩
    · exact ⟨d, hd, hc, e, he, Or.inl ⟨hf, hl, he2⟩⟩
    · exact ⟨d, hd, hc, e, he, Or.inr ⟨hf, hl, he2⟩⟩

/-- Witness for the amended C4 theorem at a concrete input. -/
theorem get_image_files_characterization_witness :
    ["d", "a.jpg"] ∈ get_image_files fsC4b [["d"]] :=
  (get_image_files_characterization fsC4b [["d"]] ["d", "a.jpg"]).2
    ⟨["d"], by decide, by decide, by decide, by decide,
      ".jpg", by decide, Or.inl (by decide)⟩

/-! ### Lemmas about the MD5 bucketing -/

/-- `addMd5` preserves any per-bucket element property that the inserted
pair satisfies. -/
theorem addMd5_pres (P : String → Nat → Prop) {b : List (String × List Nat)}
    {h : String} {f : Nat}
    (hb : ∀ kv ∈ b, ∀ x ∈ kv.2, P kv.1 x) (hf : P h f) :
    ∀ kv ∈ addMd5 h f b, ∀ x ∈ kv.2, P kv.1 x := by
  induction b with
  | nil =>
    intro kv hkv x hx
    simp only [addMd5, List.mem_singleton] at hkv
    subst hkv
    simp only [List.mem_singleton] at hx
    subst hx
    exact hf
  | cons kv0 rest ih =>
    obtain ⟨k0, fs0⟩ := kv0
    by_cases hk : k0 = h
    · intro kv hkv x hx
      simp only [addMd5, if_pos hk, List.mem_cons] at hkv
      rcases hkv with rfl | hkv
      · rcases List.mem_append.1 hx with hx | hx
        · exact hb _ (List.mem_cons_self _ _) x hx
        · simp only [List.mem_singleton] at hx
          subst hx
          rw [hk]
          exact hf
      · exact hb _ (List.mem_cons_of_mem _ hkv) x hx
    · intro kv hkv x hx
      simp only [addMd5, if_neg hk, List.mem_cons] at hkv
      rcases hkv with rfl | hkv
      · exact hb _ (List.mem_cons_self _ _) x hx
      · exact ih (fun kv2 hkv2 => hb kv2 (List.mem_cons_of_mem _ hkv2)) kv hkv x hx

/-- The keys appearing after an `addMd5` insertion were already present or
are the inserted key. -/
theorem addMd5_keys_sub {b : List (String × List Nat)} {h k : String} {f : Nat}
    (hk : k ∈ (addMd5 h f b).map Prod.fst) : k ∈ b.map Prod.fst ∨ k = h := by
  induction b with
  | nil =>
    simp only [addMd5, List.map_cons, List.map_nil, List.mem_singleton] at hk
    exact Or.inr hk
  | cons kv0 rest ih =>
    obtain ⟨k0, fs0⟩ := kv0
    by_cases hke : k0 = h
    · simp only [addMd5, if_pos hke, List.map_cons, List.mem_cons] at hk
      rcases hk with rfl | hk
      · exact Or.inl (List.mem_cons_self _ _)
      · exact Or.inl (List.mem_cons_of_mem _ hk)
    · simp only [addMd5, if_neg hke, List.map_cons, List.mem_cons] at hk
      rcases hk with rfl | hk
      · exact Or.inl (List.mem_cons_self _ _)
      · rcases ih hk with hin | rfl
        · exact Or.inl (List.mem_cons_of_mem _ hin)
        · exact Or.inr rfl

/-- `addMd5` keeps the bucket keys duplicate-free. -/
theorem addMd5_keys_nodup {b : List (String × List Nat)} {h : String} {f : Nat}
    (hnd : (b.map Prod.fst).Nodup) : ((addMd5 h f b).map Prod.fst).Nodup := by
  induction b with
  | nil => simp [addMd5]
  | cons kv0 rest ih =>
    obtain ⟨k0, fs0⟩ := kv0
    simp only [List.map_cons, List.nodup_cons] at hnd
    by_cases hke : k0 = h
    · simpa [addMd5, if_pos hke, List.nodup_cons] using hnd
    · simp only [addMd5, if_neg hke, List.map_cons, List.nodup_cons]
      refine ⟨fun hmem => ?_, ih hnd.2⟩
      rcases addMd5_keys_sub hmem with hin | rfl
      · exact hnd.1 hin
      · exact hke rfl

/-- Generalized fold invariant for `md5Buckets`: every bucket element has
the bucket's key as its digest. -/
theorem md5Buckets_fold_sound (env : DupEnv) :
    ∀ (l : List Nat) (b : List (String × List Nat)),
      (∀ kv ∈ b, ∀ x ∈ kv.2, env.md5 x = some kv.1) →
      ∀ kv ∈ l.foldl
          (fun b f => match env.md5 f with | some h => addMd5 h f b | none => b) b,
        ∀ x ∈ kv.2, env.md5 x = some kv.1 := by
  intro l
  induction l with
  | nil => intro b hb; exact hb
  | cons f rest ih =>
    intro b hb
    simp only [List.foldl_cons]
    cases hmd : env.md5 f with
    | none => exact ih b hb
    | some h => exact ih _ (addMd5_pres (fun k x => env.md5 x = some k) hb hmd)

/-- Generalized fold invariant for `md5Buckets`: bucket keys stay
duplicate-free. -/
theorem md5Buckets_fold_nodup (env : DupEnv) :
    ∀ (l : List Nat) (b : List (String × List Nat)),
      (b.map Prod.fst).Nodup →
      ((l.foldl
          (fun b f => match env.md5 f with | some h => addMd5 h f b | none => b)
          b).map Prod.fst).Nodup := by
  intro l
  induction l with
  | nil => intro b hb; exact hb
  | cons f rest ih =>
    intro b hb
    simp only [List.foldl_cons]
    cases hmd : env.md5 f with
    | none => exact ih b hb
    | some h => exact ih _ (addMd5_keys_nodup hb)

/-- Generalized fold invariant for `md5Buckets`: bucket members come from
the folded list or the initial buckets. -/
theorem md5Buckets_fold_elems (env : DupEnv) (S : List Nat) :
    ∀ (l : List Nat) (b : List (String × List Nat)),
      (∀ f ∈ l, f ∈ S) →
      (∀ kv ∈ b, ∀ x ∈ kv.2, x ∈ S) →
      ∀ kv ∈ l.foldl
          (fun b f => match env.md5 f with | some h => addMd5 h f b | none => b) b,
        ∀ x ∈ kv.2, x ∈ S := by
  intro l
  induction l with
  | nil => intro b _ hb; exact hb
  | cons f rest ih =>
    intro b hl hb
    simp only [List.foldl_cons]
    cases hmd : env.md5 f with
    | none => exact ih b (fun g hg => hl g (List.mem_cons_of_mem _ hg)) hb
    | some h =>
      exact ih _ (fun g hg => hl g (List.mem_cons_of_mem _ hg))
        (addMd5_pres (fun _ x => x ∈ S) hb (hl f (List.mem_cons_self _ _)))

/-- Every member of an MD5 bucket has the bucket's key as digest. -/
theorem md5Buckets_sound (env : DupEnv) (files : List Nat) :
    ∀ kv ∈ md5Buckets env files, ∀ x ∈ kv.2, env.md5 x = some kv.1 :=
  md5Buckets_fold_sound env files [] (by simp)

/-- Distinct MD5 buckets hold disjoint file sets. -/
theorem md5Buckets_disjoint (env : DupEnv) (files : List Nat) :
    (md5Buckets env files).Pairwise (fun a b => ∀ x ∈ a.2, x ∉ b.2) := by
  have hnd : ((md5Buckets env files).map Prod.fst).Nodup :=
    md5Buckets_fold_nodup env files [] (by simp)
  have hpw : (md5Buckets env files).Pairwise (fun a b => a.1 ≠ b.1) :=
    (List.pairwise_map).1 hnd
  refine hpw.imp_of_mem ?_
  intro a b ha hb hne x hxa hxb
  have h1 := md5Buckets_sound env files a ha x hxa
  have h2 := md5Buckets_sound env files b hb x hxb
  rw [h1] at h2
  exact hne (Option.some.inj h2)

/-- Bucket members come from the input file list. -/
theorem md5Buckets_elems (env : DupEnv) (files : List Nat) :
    ∀ kv ∈ md5Buckets env files, ∀ x ∈ kv.2, x ∈ files :=
  md5Buckets_fold_elems env files files [] (fun _ hf => hf) (by simp)

/-- Membership in a fold that concatenates bucket contents. -/
theorem mem_foldl_append {α β : Type} (proj : β → List α) :
    ∀ (l : List β) (acc : List α) (x : α),
      x ∈ l.foldl (fun a kv => a ++ proj kv) acc ↔ x ∈ acc ∨ ∃ kv ∈ l, x ∈ proj kv := by
  intro l
  induction l with
  | nil => simp
  | cons kv rest ih =>
    intro acc x
    simp only [List.foldl_cons, ih, List.mem_append, List.mem_cons]
    constructor
    · rintro ((h | h) | ⟨kv2, hkv2, hx⟩)
      · exact Or.inl h
      · exact Or.inr ⟨kv, Or.inl rfl, h⟩
      · exact Or.inr ⟨kv2, Or.inr hkv2, hx⟩
    · rintro (h | ⟨kv2, hkv2 | hkv2, hx⟩)
      · exact Or.inl (Or.inl h)
      · exact Or.inl (Or.inr (hkv2 ▸ hx))
      · exact Or.inr ⟨kv2, hkv2, hx⟩

/-- Characterization of `exactFiles` membership. -/
theorem exactFiles_iff (env : DupEnv) (files : List Nat) (x : Nat) :
    x ∈ exactFiles env files ↔ ∃ kv ∈ exact_duplicates env files, x ∈ kv.2 := by
  unfold exactFiles
  rw [mem_foldl_append (fun kv : String × List Nat => kv.2)]
  simp

/-- Keys of the `image_hashes` dict after an insertion. -/
theorem addHash_keys_sub {l : List (Nat × ImgHashes)} {f x : Nat} {h : ImgHashes}
    (hx : x ∈ (addHash f h l).map Prod.fst) : x ∈ l.map Prod.fst ∨ x = f := by
  induction l with
  | nil =>
    simp only [addHash, List.map_cons, List.map_nil, List.mem_singleton] at hx
    exact Or.inr hx
  | cons kv rest ih =>
    obtain ⟨g, hg⟩ := kv
    by_cases hgf : g = f
    · simp only [addHash, if_pos hgf, List.map_cons, List.mem_cons] at hx
      rcases hx with rfl | hx
      · exact Or.inl (List.mem_cons_self _ _)
      · exact Or.inl (List.mem_cons_of_mem _ hx)
    · simp only [addHash, if_neg hgf, List.map_cons, List.mem_cons] at hx
      rcases hx with rfl | hx
      · exact Or.inl (List.mem_cons_self _ _)
      · rcases ih hx with hin | rfl
        · exact Or.inl (List.mem_cons_of_mem _ hin)
        · exact Or.inr rfl

/-- The keys of the `image_hashes` dict come from the folded file list. -/
theorem imageHashes_keys_sub (env : DupEnv) :
    ∀ (l : List Nat) (acc : List (Nat × ImgHashes)),
      ∀ x ∈ (l.foldl
          (fun acc f =>
            match env.hashes f with | some h => addHash f h acc | none => acc)
          acc).map Prod.fst,
        x ∈ acc.map Prod.fst ∨ x ∈ l := by
  intro l
  induction l with
  | nil => intro acc x hx; exact Or.inl hx
  | cons f rest ih =>
    intro acc x hx
    simp only [List.foldl_cons] at hx
    cases hh : env.hashes f with
    | none =>
      rw [hh] at hx
      rcases ih acc x hx with h1 | h1
      · exact Or.inl h1
      · exact Or.inr (List.mem_cons_of_mem _ h1)
    | some h =>
      rw [hh] at hx
      rcases ih _ x hx with h1 | h1
      · rcases addHash_keys_sub h1 with h2 | rfl
        · exact Or.inl h2
        · exact Or.inr (List.mem_cons_self _ _)
      · exact Or.inr (List.mem_cons_of_mem _ h1)

/-! ### Lemmas about the greedy similarity pass -/

/-- `buildGroup` only ever extends the processed set. -/
theorem buildGroup_processed_mono (t : Nat) (seed : Nat) (h1 : ImgHashes) :
    ∀ (items : List (Nat × ImgHashes)) (g p : List Nat) (x : Nat),
      x ∈ p → x ∈ (buildGroup t seed h1 items g p).2 := by
  intro items
  induction items with
  | nil => intro g p x hx; exact hx
  | cons it rest ih =>
    intro g p x hx
    obtain ⟨f, h2⟩ := it
    simp only [buildGroup]
    by_cases hskip : f ∈ p ∨ seed = f
    · rw [if_pos hskip]; exact ih g p x hx
    · rw [if_neg hskip]
      by_cases hj : joinCond t h1 h2
      · rw [if_pos hj]; exact ih _ _ x (List.mem_cons_of_mem _ hx)
      · rw [if_neg hj]; exact ih g p x hx

/-- `buildGroup` only ever extends the group. -/
theorem buildGroup_group_mono (t : Nat) (seed : Nat) (h1 : ImgHashes) :
    ∀ (items : List (Nat × ImgHashes)) (g p : List Nat) (x : Nat),
      x ∈ g → x ∈ (buildGroup t seed h1 items g p).1 := by
  intro items
  induction items with
  | nil => intro g p x hx; exact hx
  | cons it rest ih =>
    intro g p x hx
    obtain ⟨f, h2⟩ := it
    simp only [buildGroup]
    by_cases hskip : f ∈ p ∨ seed = f
    · rw [if_pos hskip]; exact ih g p x hx
    · rw [if_neg hskip]
      by_cases hj : joinCond t h1 h2
      · rw [if_pos hj]; exact ih _ _ x (List.mem_append_left _ hx)
      · rw [if_neg hj]; exact ih g p x hx

/-- Every member of a built group was already in the starting group or is a
not-yet-processed dict key. -/
theorem buildGroup_mem_src (t : Nat) (seed : Nat) (h1 : ImgHashes) :
    ∀ (items : List (Nat × ImgHashes)) (g p : List Nat) (x : Nat),
      x ∈ (buildGroup t seed h1 items g p).1 →
      x ∈ g ∨ (x ∈ items.map Prod.fst ∧ x ∉ p) := by
  intro items
  induction items with
  | nil => intro g p x hx; exact Or.inl hx
  | cons it rest ih =>
    intro g p x hx
    obtain ⟨f, h2⟩ := it
    simp only [buildGroup] at hx
    by_cases hskip : f ∈ p ∨ seed = f
    · rw [if_pos hskip] at hx
      rcases ih g p x hx with h | ⟨hk, hp⟩
      · exact Or.inl h
      · exact Or.inr ⟨List.mem_cons_of_mem _ hk, hp⟩
    · rw [if_neg hskip] at hx
      by_cases hj : joinCond t h1 h2
      · rw [if_pos hj] at hx
        rcases ih _ _ x hx with h | ⟨hk, hp⟩
        · rcases List.mem_append.1 h with h | h
          · exact Or.inl h
          · simp only [List.mem_singleton] at h
            subst h
            exact Or.inr ⟨List.mem_cons_self _ _,
              fun hmem => hskip (Or.inl hmem)⟩
        · refine Or.inr ⟨List.mem_cons_of_mem _ hk, fun hmem => hp ?_⟩
          exact List.mem_cons_of_mem _ hmem
      · rw [if_neg hj] at hx
        rcases ih g p x hx with h | ⟨hk, hp⟩
        · exact Or.inl h
        · exact Or.inr ⟨List.mem_cons_of_mem _ hk, hp⟩

/-- If the starting group is contained in the processed set, so is the
built group in the final processed set. -/
theorem buildGroup_sub_processed (t : Nat) (seed : Nat) (h1 : ImgHashes) :
    ∀ (items : List (Nat × ImgHashes)) (g p : List Nat),
      (∀ x ∈ g, x ∈ p) →
      ∀ x ∈ (buildGroup t seed h1 items g p).1, x ∈ (buildGroup t seed h1 items g p).2 := by
  intro items
  induction items with
  | nil => intro g p hgp x hx; exact hgp x hx
  | cons it rest ih =>
    intro g p hgp x hx
    obtain ⟨f, h2⟩ := it
    simp only [buildGroup] at hx ⊢
    by_cases hskip : f ∈ p ∨ seed = f
    · rw [if_pos hskip] at hx ⊢; exact ih g p hgp x hx
    · rw [if_neg hskip] at hx ⊢
      by_cases hj : joinCond t h1 h2
      · rw [if_pos hj] at hx ⊢
        refine ih _ _ ?_ x hx
        intro y hy
        rcases List.mem_append.1 hy with hy | hy
        · exact List.mem_cons_of_mem _ (hgp y hy)
        · simp only [List.mem_singleton] at hy
          subst hy
          exact List.mem_cons_self _ _
      · rw [if_neg hj] at hx ⊢; exact ih g p hgp x hx

/-- Main invariant of the outer similarity loop: kept groups are contained
in the processed set, are pairwise disjoint, and their members come from
the previously kept groups, the full dict, or the remaining entries. -/
theorem similarLoop_inv (t : Nat) (allItems : List (Nat × ImgHashes)) :
    ∀ (rest : List (Nat × ImgHashes)) (gs : List (List Nat)) (p : List Nat),
      (∀ g ∈ gs, ∀ x ∈ g, x ∈ p) →
      gs.Pairwise (fun g1 g2 => ∀ x ∈ g1, x ∉ g2) →
      (∀ g ∈ (similarLoop t allItems rest gs p).1, ∀ x ∈ g,
          x ∈ (similarLoop t allItems rest gs p).2)
        ∧ (similarLoop t allItems rest gs p).1.Pairwise
            (fun g1 g2 => ∀ x ∈ g1, x ∉ g2)
        ∧ ∀ g ∈ (similarLoop t allItems rest gs p).1, ∀ x ∈ g,
            (∃ g0 ∈ gs, x ∈ g0) ∨ x ∈ allItems.map Prod.fst ∨ x ∈ rest.map Prod.fst := by
  intro rest
  induction rest with
  | nil =>
    intro gs p hsub hpw
    refine ⟨hsub, hpw, ?_⟩
    intro g hg x hx
    exact Or.inl ⟨g, hg, hx⟩
  | cons it rest2 ih =>
    intro gs p hsub hpw
    obtain ⟨f, h1⟩ := it
    by_cases hf : f ∈ p
    · simp only [similarLoop, if_pos hf]
      obtain ⟨c1, c2, c3⟩ := ih gs p hsub hpw
      refine ⟨c1, c2, ?_⟩
      intro g hg x hx
      rcases c3 g hg x hx with h | h | h
      · exact Or.inl h
      · exact Or.inr (Or.inl h)
      · exact Or.inr (Or.inr (List.mem_cons_of_mem _ h))
    · simp only [similarLoop, if_neg hf]
      have hseed : ∀ x ∈ ([f] : List Nat), x ∈ f :: p := by
        intro x hx
        simp only [List.mem_singleton] at hx
        subst hx
        exact List.mem_cons_self _ _
      have hnewsub : ∀ x ∈ (buildGroup t f h1 allItems [f] (f :: p)).1,
          x ∈ (buildGroup t f h1 allItems [f] (f :: p)).2 :=
        buildGroup_sub_processed t f h1 allItems [f] (f :: p) hseed
      have holdsub : ∀ g ∈ gs, ∀ x ∈ g,
          x ∈ (buildGroup t f h1 allItems [f] (f :: p)).2 := by
        intro g hg x hx
        exact buildGroup_processed_mono t f h1 allItems [f] (f :: p) x
          (List.mem_cons_of_mem _ (hsub g hg x hx))
      have hcross : ∀ g ∈ gs, ∀ x ∈ g,
          x ∉ (buildGroup t f h1 allItems [f] (f :: p)).1 := by
        intro g hg x hx hxin
        rcases buildGroup_mem_src t f h1 allItems [f] (f :: p) x hxin with h | ⟨_, hnp⟩
        · simp only [List.mem_singleton] at h
          subst h
          exact hf (hsub g hg x hx)
        · exact hnp (List.mem_cons_of_mem _ (hsub g hg x hx))
      by_cases hlen : 1 < (buildGroup t f h1 allItems [f] (f :: p)).1.length
      · rw [if_pos hlen]
        have hsub2 : ∀ g ∈ gs ++ [(buildGroup t f h1 allItems [f] (f :: p)).1],
            ∀ x ∈ g, x ∈ (buildGroup t f h1 allItems [f] (f :: p)).2 := by
          intro g hg
          rcases List.mem_append.1 hg with hg | hg
          · exact holdsub g hg
          · simp only [List.mem_singleton] at hg
            subst hg
            exact hnewsub
        have hpw2 : (gs ++ [(buildGroup t f h1 allItems [f] (f :: p)).1]).Pairwise
            (fun g1 g2 => ∀ x ∈ g1, x ∉ g2) := by
          rw [List.pairwise_append]
          refine ⟨hpw, List.pairwise_singleton _ _, ?_⟩
          intro g hg g2 hg2
          simp only [List.mem_singleton] at hg2
          subst hg2
          exact hcross g hg
        obtain ⟨c1, c2, c3⟩ := ih _ _ hsub2 hpw2
        refine ⟨c1, c2, ?_⟩
        intro g hg x hx
        rcases c3 g hg x hx with ⟨g0, hg0, hxg0⟩ | h | h
        · rcases List.mem_append.1 hg0 with hg0 | hg0
          · exact Or.inl ⟨g0, hg0, hxg0⟩
          · simp only [List.mem_singleton] at hg0
            subst hg0
            rcases buildGroup_mem_src t f h1 allItems [f] (f :: p) x hxg0 with
              h | ⟨hk, _⟩
            · simp only [List.mem_singleton] at h
              subst h
              exact Or.inr (Or.inr (by simp))
            · exact Or.inr (Or.inl hk)
        · exact Or.inr (Or.inl h)
        · exact Or.inr (Or.inr (List.mem_cons_of_mem _ h))
      · rw [if_neg hlen]
        obtain ⟨c1, c2, c3⟩ := ih gs _ holdsub hpw
        refine ⟨c1, c2, ?_⟩
        intro g hg x hx
        rcases c3 g hg x hx with h | h | h
        · exact Or.inl h
        · exact Or.inr (Or.inl h)
        · exact Or.inr (Or.inr (List.mem_cons_of_mem _ h))

/-- Groups kept by the outer loop have more than one member. -/
theorem similarLoop_len (t : Nat) (allItems : List (Nat × ImgHashes)) :
    ∀ (rest : List (Nat × ImgHashes)) (gs : List (List Nat)) (p : List Nat),
      (∀ g ∈ gs, 1 < g.length) →
      ∀ g ∈ (similarLoop t allItems rest gs p).1, 1 < g.length := by
  intro rest
  induction rest with
  | nil => intro gs p h; exact h
  | cons it rest2 ih =>
    intro gs p h
    obtain ⟨f, h1⟩ := it
    by_cases hf : f ∈ p
    · simp only [similarLoop, if_pos hf]
      exact ih gs p h
    · simp only [similarLoop, if_neg hf]
      by_cases hlen : 1 < (buildGroup t f h1 allItems [f] (f :: p)).1.length
      · rw [if_pos hlen]
        refine ih _ _ ?_
        intro g hg
        rcases List.mem_append.1 hg with hg | hg
        · exact h g hg
        · simp only [List.mem_singleton] at hg
          subst hg
          exact hlen
      · rw [if_neg hlen]
        exact ih gs _ h

/-- The similarity pass produces pairwise disjoint groups. -/
theorem similar_groups_disjoint (env : DupEnv) (t : Nat) (files : List Nat) :
    (similar_groups env t files).Pairwise (fun g1 g2 => ∀ x ∈ g1, x ∉ g2) :=
  (similarLoop_inv t (imageHashes env files) (imageHashes env files) [] []
    (by simp) (by simp)).2.1

/-- Members of similarity groups come from the input file list. -/
theorem similar_groups_elems (env : DupEnv) (t : Nat) (files : List Nat) :
    ∀ g ∈ similar_groups env t files, ∀ x ∈ g, x ∈ files := by
  intro g hg x hx
  have h := (similarLoop_inv t (imageHashes env files) (imageHashes env files) [] []
    (by simp) (by simp)).2.2 g hg x hx
  rcases h with ⟨g0, hg0, _⟩ | h | h
  · simp at hg0
  · rcases imageHashes_keys_sub env files [] x h with h2 | h2
    · simp at h2
    · exact h2
  · rcases imageHashes_keys_sub env files [] x h with h2 | h2
    · simp at h2
    · exact h2

/-- Similarity groups have at least two members. -/
theorem similar_groups_len (env : DupEnv) (t : Nat) (files : List Nat) :
    ∀ g ∈ similar_groups env t files, 1 < g.length :=
  similarLoop_len t (imageHashes env files) (imageHashes env files) [] [] (by simp)

/-- A group returned by `find_duplicates` is an exact bucket or a filtered
similarity group. -/
theorem find_duplicates_cases (env : DupEnv) (t : Nat) (files : List Nat)
    (g : GroupData) (hg : g ∈ find_duplicates env t files) :
    (∃ kv ∈ exact_duplicates env files,
        g = ⟨kv.2, mkResolutions env kv.2, GKind.exact⟩)
    ∨ (∃ s ∈ similar_groups env t files,
        (∀ x ∈ s, x ∉ exactFiles env files)
        ∧ g = ⟨s, mkResolutions env s, GKind.similar⟩) := by
  unfold find_duplicates at hg
  rcases List.mem_append.1 hg with hg | hg
  · rcases List.mem_map.1 hg with ⟨kv, hkv, rfl⟩
    exact Or.inl ⟨kv, hkv, rfl⟩
  · rcases List.mem_map.1 hg with ⟨s, hs, rfl⟩
    have hs2 := List.mem_filter.1 hs
    refine Or.inr ⟨s, hs2.1, ?_, rfl⟩
    have := of_decide_eq_true hs2.2
    intro x hx hex
    exact this (by simp only [List.any_eq_true]; exact ⟨x, hx, decide_eq_true hex⟩)

/-- C5 (claim theorem): the mapping returned by `find_duplicates`
partitions the input disjointly — no file is a member of two returned
groups, and every group member is an input file, so each input file is in
exactly one of an exact group, a similar group, or ungrouped. -/
theorem find_duplicates_partition (env : DupEnv) (t : Nat) (files : List Nat) :
    (find_duplicates env t files).Pairwise
      (fun g1 g2 => ∀ f ∈ g1.files, f ∉ g2.files)
    ∧ ∀ g ∈ find_duplicates env t files, ∀ f ∈ g.files, f ∈ files := by
  constructor
  · unfold find_duplicates
    rw [List.pairwise_append]
    refine ⟨?_, ?_, ?_⟩
    · rw [List.pairwise_map]
      have hpw : (exact_duplicates env files).Pairwise
          (fun a b => ∀ x ∈ a.2, x ∉ b.2) :=
        (md5Buckets_disjoint env files).sublist (List.filter_sublist _)
      exact hpw.imp (fun {a b} hab => hab)
    · rw [List.pairwise_map]
      have hpw : ((similar_groups env t files).filter
          (fun g => ¬ g.any (fun f => f ∈ exactFiles env files))).Pairwise
          (fun g1 g2 => ∀ x ∈ g1, x ∉ g2) :=
        (similar_groups_disjoint env t files).sublist (List.filter_sublist _)
      exact hpw.imp (fun {a b} hab => hab)
    · intro a ha b hb f hfa hfb
      rcases List.mem_map.1 ha with ⟨kv, hkv, rfl⟩
      rcases List.mem_map.1 hb with ⟨s, hs, rfl⟩
      have hs2 := List.mem_filter.1 hs
      have hnotex := of_decide_eq_true hs2.2
      have hex : f ∈ exactFiles env files :=
        (exactFiles_iff env files f).2 ⟨kv, hkv, hfa⟩
      exact hnotex (by simp only [List.any_eq_true]; exact ⟨f, hfb, decide_eq_true hex⟩)
  · intro g hg f hf
    rcases find_duplicates_cases env t files g hg with
      ⟨kv, hkv, rfl⟩ | ⟨s, hs, _, rfl⟩
    · exact md5Buckets_elems env files kv (List.mem_of_mem_filter hkv) f hf
    · exact similar_groups_elems env t files s hs f hf

/-- Boolean shape of the source's join condition. -/
theorem joinCond_bool_aux : ∀ a b c : Bool,
    ((a && b && c) || decide (2 ≤ boolSum [a, b, c])) = true ↔ 2 ≤ boolSum [a, b, c] := by
  decide

/-- The all-three clause of the join condition is subsumed by the
two-of-three majority clause. -/
theorem joinCond_iff_majority (t : Nat) (h1 h2 : ImgHashes) :
    joinCond t h1 h2 = true ↔
      2 ≤ boolSum [decide (hamming h1.phash h2.phash ≤ t),
        decide (hamming h1.dhash h2.dhash ≤ t),
        decide (hamming h1.whash h2.whash ≤ t)] := by
  simp only [joinCond]
  exact joinCond_bool_aux _ _ _

/-- If a file is not a key of the scanned entries, the inner loop neither
adds nor removes it from the group. -/
theorem buildGroup_mem_stable (t : Nat) (seed : Nat) (h1 : ImgHashes)
    (items : List (Nat × ImgHashes)) (g p : List Nat) (f : Nat)
    (hkeys : f ∉ items.map Prod.fst) :
    f ∈ (buildGroup t seed h1 items g p).1 ↔ f ∈ g := by
  constructor
  · intro hf
    rcases buildGroup_mem_src t seed h1 items g p f hf with h | ⟨hk, _⟩
    · exact h
    · exact absurd hk hkeys
  · exact buildGroup_group_mono t seed h1 items g p f

/-- The seed-only membership law of the inner loop: a file that is not yet
processed and is not the seed joins the seed's group exactly when its
hashes meet `joinCond` against the seed's hashes. -/
theorem buildGroup_mem_iff (t : Nat) (seed : Nat) (h1 hf : ImgHashes) (f : Nat) :
    ∀ (items : List (Nat × ImgHashes)) (g p : List Nat),
      (f, hf) ∈ items → (items.map Prod.fst).Nodup → f ∉ p → seed ≠ f →
      (f ∈ (buildGroup t seed h1 items g p).1 ↔ f ∈ g ∨ joinCond t h1 hf = true) := by
  intro items
  induction items with
  | nil => intro g p hmem; exact absurd hmem (List.not_mem_nil _)
  | cons it rest ih =>
    intro g p hmem hnd hp hseed
    obtain ⟨q, hq⟩ := it
    simp only [List.map_cons, List.nodup_cons] at hnd
    by_cases hqf : q = f
    · subst hqf
      have hq_eq : hq = hf := by
        rcases List.mem_cons.1 hmem with h | h
        · exact (Prod.mk.injEq _ _ _ _ ▸ h).2.symm
        · exact absurd (List.mem_map.2 ⟨(q, hf), h, rfl⟩) hnd.1
      have hskip : ¬ (q ∈ p ∨ seed = q) := by
        rintro (h | h)
        · exact hp h
        · exact hseed h
      simp only [buildGroup, if_neg hskip]
      rw [hq_eq]
      by_cases hj : joinCond t h1 hf
      · rw [if_pos hj]
        constructor
        · intro _; exact Or.inr hj
        · intro _
          exact buildGroup_group_mono t seed h1 rest _ _ q
            (List.mem_append_right _ (List.mem_singleton.2 rfl))
      · rw [if_neg hj]
        rw [buildGroup_mem_stable t seed h1 rest g p q hnd.1]
        constructor
        · exact Or.inl
        · rintro (h | h)
          · exact h
          · exact absurd h hj
    · have hmem2 : (f, hf) ∈ rest := by
        rcases List.mem_cons.1 hmem with h | h
        · exact absurd ((Prod.mk.injEq _ _ _ _ ▸ h).1.symm) hqf
        · exact h
      simp only [buildGroup]
      by_cases hskip : q ∈ p ∨ seed = q
      · rw [if_pos hskip]
        exact ih g p hmem2 hnd.2 hp hseed
      · rw [if_neg hskip]
        by_cases hj : joinCond t h1 hq
        · rw [if_pos hj]
          rw [ih _ _ hmem2 hnd.2
            (fun hc => (List.mem_cons.1 hc).elim (fun he => hqf he.symm) hp) hseed]
          constructor
          · rintro (h | h)
            · rcases List.mem_append.1 h with h | h
              · exact Or.inl h
              · exact absurd (List.mem_singleton.1 h) (fun he => hqf he.symm)
            · exact Or.inr h
          · rintro (h | h)
            · exact Or.inl (List.mem_append_left _ h)
            · exact Or.inr h
        · rw [if_neg hj]
          exact ih g p hmem2 hnd.2 hp hseed

/-- Every returned duplicate group has at least two members. -/
theorem find_duplicates_min_len (env : DupEnv) (t : Nat) (files : List Nat) :
    ∀ g ∈ find_duplicates env t files, 2 ≤ g.files.length := by
  intro g hg
  rcases find_duplicates_cases env t files g hg with
    ⟨kv, hkv, rfl⟩ | ⟨s, hs, _, rfl⟩
  · exact (List.mem_filter.1 hkv).2 |> of_decide_eq_true
  · exact similar_groups_len env t files s hs

/-- C1 (counterexample): with files `[1, 2, 3, 4]` under `envC1`, the
exact-duplicate file 1 seeds the similarity pass and absorbs the non-exact
files 3 and 4, so the whole candidate group is dropped and the returned
mapping has no similar group at all — whereas running the similarity pass
only over the files not in an exact group yields the group `[3, 4]`.
Exact-group files therefore do participate in and influence similar-group
formation, refuting the claim as stated. -/
theorem find_duplicates_exact_influences_similar :
    similarGroupsOverNonExact envC1 5 [1, 2, 3, 4] = [[3, 4]]
    ∧ ((find_duplicates envC1 5 [1, 2, 3, 4]).filter
        (fun g => g.type = GKind.similar)).map GroupData.files = []
    ∧ ¬ (((find_duplicates envC1 5 [1, 2, 3, 4]).filter
        (fun g => g.type = GKind.similar)).map GroupData.files
          = similarGroupsOverNonExact envC1 5 [1, 2, 3, 4]) := by
  decide

/-- C1 (amended claim theorem): every similar group in the returned
mapping consists solely of files that are in no exact group (a candidate
similar group containing an exact-group file is dropped whole); exact
files do, however, participate in the similarity pass itself. -/
theorem find_duplicates_similar_nonexact (env : DupEnv) (t : Nat)
    (files : List Nat) :
    ∀ g ∈ find_duplicates env t files, g.type = GKind.similar →
      ∀ f ∈ g.files, f ∉ exactFiles env files := by
  intro g hg htype f hf
  rcases find_duplicates_cases env t files g hg with
    ⟨kv, _, rfl⟩ | ⟨s, _, hne, rfl⟩
  · exact absurd htype (by simp)
  · exact hne f hf

/-- Witness for the amended C1 theorem at a concrete input. -/
theorem find_duplicates_similar_nonexact_witness :
    1 ∉ exactFiles envGrp [1, 2] :=
  find_duplicates_similar_nonexact envGrp 5 [1, 2]
    ⟨[1, 2], [], GKind.similar⟩ (by decide) (by decide) 1 (by decide)

/-- Witness for the C5 partition theorem at a concrete input. -/
theorem find_duplicates_partition_witness :
    (find_duplicates envC1 5 [1, 2, 3, 4]).Pairwise
      (fun g1 g2 => ∀ f ∈ g1.files, f ∉ g2.files)
    ∧ ∀ g ∈ find_duplicates envC1 5 [1, 2, 3, 4], ∀ f ∈ g.files, f ∈ [1, 2, 3, 4] :=
  find_duplicates_partition envC1 5 [1, 2, 3, 4]

/-- C6 (claim theorem): (1) a candidate joins the seed's group exactly
when at least two of the three perceptual distances are within threshold
(the all-three clause is subsumed); (2) the comparison is against the
group's seed only — membership of an unprocessed non-seed file depends
only on `joinCond` against the seed's hashes; (3) groups of size 1 are
discarded (every returned group has at least two members); (4) the default
threshold is 5. -/
theorem similarity_join_rule :
    (∀ (t : Nat) (h1 h2 : ImgHashes), joinCond t h1 h2 = true ↔
        2 ≤ boolSum [decide (hamming h1.phash h2.phash ≤ t),
          decide (hamming h1.dhash h2.dhash ≤ t),
          decide (hamming h1.whash h2.whash ≤ t)])
    ∧ (∀ (t seed : Nat) (h1 hf : ImgHashes) (f : Nat)
        (items : List (Nat × ImgHashes)) (g p : List Nat),
        (f, hf) ∈ items → (items.map Prod.fst).Nodup → f ∉ p → seed ≠ f →
        (f ∈ (buildGroup t seed h1 items g p).1 ↔
          f ∈ g ∨ joinCond t h1 hf = true))
    ∧ (∀ (env : DupEnv) (t : Nat) (files : List Nat),
        ∀ g ∈ find_duplicates env t files, 2 ≤ g.files.length)
    ∧ defaultCfg.hash_threshold = 5 := by
  refine ⟨joinCond_iff_majority, ?_, find_duplicates_min_len, rfl⟩
  intro t seed h1 hf f items g p h1m h2m h3m h4m
  exact buildGroup_mem_iff t seed h1 hf f items g p h1m h2m h3m h4m

/-- Witness for the C6 theorem at concrete inputs. -/
theorem similarity_join_rule_witness :
    joinCond 5 h0 h0 = true
    ∧ 2 ∈ (buildGroup 5 1 h0 [(2, h0)] [1] [1]).1
    ∧ 2 ≤ (GroupData.mk [1, 2] [] GKind.similar).files.length
    ∧ defaultCfg.hash_threshold = 5 :=
  ⟨(similarity_join_rule.1 5 h0 h0).2 (by decide),
    (similarity_join_rule.2.1 5 1 h0 h0 2 [(2, h0)] [1] [1] (by decide)
      (by decide) (by decide) (by decide)).2
        (Or.inr ((similarity_join_rule.1 5 h0 h0).2 (by decide))),
    similarity_join_rule.2.2.1 envGrp 5 [1, 2]
      (GroupData.mk [1, 2] [] GKind.similar) (by decide),
    similarity_join_rule.2.2.2⟩

/-! ### Stable sort lemmas -/

/-- Inserting permutes to consing. -/
theorem insertStable_perm {α : Type} (le : α → α → Bool) (x : α) :
    ∀ l : List α, (insertStable le x l).Perm (x :: l) := by
  intro l
  induction l with
  | nil => simp [insertStable]
  | cons y ys ih =>
    by_cases h : le y x
    · simp only [insertStable, if_pos h]
      exact (ih.cons y).trans (List.Perm.swap x y ys)
    · simp only [insertStable, if_neg h]
      exact List.Perm.refl _

/-- The stable sort permutes its input. -/
theorem sortPy_perm {α : Type} (le : α → α → Bool) (l : List α) :
    (sortPy le l).Perm l := by
  suffices h : ∀ (l acc : List α),
      (l.foldl (fun acc x => insertStable le x acc) acc).Perm (acc ++ l) by
    simpa using h l []
  intro l
  induction l with
  | nil => simp
  | cons x xs ih =>
    intro acc
    rw [List.foldl_cons]
    refine (ih (insertStable le x acc)).trans ?_
    refine (List.Perm.append_right xs ((insertStable_perm le x acc))).trans ?_
    exact (List.perm_middle).symm

/-- Insertion preserves sortedness for a total, transitive comparison. -/
theorem insertStable_sorted {α : Type} (le : α → α → Bool)
    (htot : ∀ a b, le a b = true ∨ le b a = true)
    (htr : ∀ a b c, le a b = true → le b c = true → le a c = true) (x : α) :
    ∀ l : List α, l.Pairwise (fun a b => le a b = true) →
      (insertStable le x l).Pairwise (fun a b => le a b = true) := by
  intro l
  induction l with
  | nil => simp [insertStable]
  | cons y ys ih =>
    intro hpw
    rw [List.pairwise_cons] at hpw
    by_cases h : le y x
    · simp only [insertStable, if_pos h, List.pairwise_cons]
      refine ⟨?_, ih hpw.2⟩
      intro z hz
      have := (insertStable_perm le x ys).mem_iff.1 hz
      rcases List.mem_cons.1 this with rfl | hz2
      · exact h
      · exact hpw.1 z hz2
    · simp only [insertStable, if_neg h]
      have hxy : le x y = true := by
        rcases htot x y with h2 | h2
        · exact h2
        · exact absurd h2 (by simpa using h)
      rw [List.pairwise_cons]
      refine ⟨?_, List.pairwise_cons.2 hpw⟩
      intro z hz
      rcases List.mem_cons.1 hz with rfl | hz2
      · exact hxy
      · exact htr x y z hxy (hpw.1 z hz2)

/-- The stable sort sorts, for a total, transitive comparison. -/
theorem sortPy_sorted {α : Type} (le : α → α → Bool)
    (htot : ∀ a b, le a b = true ∨ le b a = true)
    (htr : ∀ a b c, le a b = true → le b c = true → le a c = true)
    (l : List α) : (sortPy le l).Pairwise (fun a b => le a b = true) := by
  suffices h : ∀ (l acc : List α),
      acc.Pairwise (fun a b => le a b = true) →
      (l.foldl (fun acc x => insertStable le x acc) acc).Pairwise
        (fun a b => le a b = true) by
    exact h l [] (by simp)
  intro l
  induction l with
  | nil => intro acc h; exact h
  | cons x xs ih =>
    intro acc hacc
    rw [List.foldl_cons]
    exact ih _ (insertStable_sorted le htot htr x acc hacc)

/-- `keyGe` is total. -/
theorem keyGe_total (a b : Nat × Nat) : keyGe a b = true ∨ keyGe b a = true := by
  simp only [keyGe, Bool.or_eq_true, Bool.and_eq_true, decide_eq_true_eq]
  omega

/-- `keyGe` is transitive. -/
theorem keyGe_trans (a b c : Nat × Nat) (h1 : keyGe a b = true)
    (h2 : keyGe b c = true) : keyGe a c = true := by
  simp only [keyGe, Bool.or_eq_true, Bool.and_eq_true, decide_eq_true_eq] at h1 h2 ⊢
  omega

/-- The first element of a list sorted by a total, transitive comparison
dominates every element. -/
theorem sortPy_head_max {α : Type} (le : α → α → Bool)
    (htot : ∀ a b, le a b = true ∨ le b a = true)
    (htr : ∀ a b c, le a b = true → le b c = true → le a c = true)
    (l : List α) (k : α) (hk : (sortPy le l).head? = some k) :
    ∀ x ∈ l, le k x = true := by
  intro x hx
  have hmem : x ∈ sortPy le l := (sortPy_perm le l).mem_iff.2 hx
  cases hs : sortPy le l with
  | nil => rw [hs] at hmem; exact absurd hmem (List.not_mem_nil x)
  | cons y t =>
    rw [hs] at hk hmem
    simp only [List.head?] at hk
    obtain rfl : y = k := by injection hk
    have hpw := sortPy_sorted le htot htr l
    rw [hs, List.pairwise_cons] at hpw
    rcases List.mem_cons.1 hmem with rfl | hmem2
    · rcases htot x x with h | h
      · exact h
      · exact h
    · exact hpw.1 x hmem2

/-- Summing the second components via `foldl` is summing a mapped list. -/
theorem foldl_add_map {α : Type} (f : α → Nat) :
    ∀ (l : List α) (n : Nat), l.foldl (fun s x => s + f x) n = n + (l.map f).sum := by
  intro l
  induction l with
  | nil => simp
  | cons x xs ih =>
    intro n
    rw [List.foldl_cons, ih, List.map_cons, List.sum_cons]
    omega

/-- A successful `head?` yields a member. -/
theorem headq_mem {α : Type} {l : List α} {k : α} (h : l.head? = some k) : k ∈ l := by
  cases l with
  | nil => exact absurd h (by simp)
  | cons x t =>
    simp only [List.head?] at h
    obtain rfl : x = k := by injection h
    exact List.mem_cons_self _ _

/-! ### Reporting and resolver theorems (C8, C3) -/

/-- The ranked entries of a group are a permutation of its per-file
entries. -/
theorem apiSorted_perm (env : SizeEnv) (g : GroupData) :
    (apiSorted env g).Perm (g.files.map (apiEntryOf env g)) :=
  sortPy_perm _ _

/-- Per-group keep/space law of the API server's ranking. -/
theorem apiGroup_keep (env : SizeEnv) (g : GroupData) (hne : g.files ≠ []) :
    ∃ k, apiKept env g = some k ∧ k.1 ∈ g.files
      ∧ (∀ f ∈ g.files, keyGe (apiKey k) (apiKey (apiEntryOf env g f)) = true)
      ∧ apiGroupSpace env g + k.2.2 = (g.files.map (liveSize env)).sum := by
  have hlen : (apiSorted env g).length = g.files.length := by
    rw [(apiSorted_perm env g).length_eq, List.length_map]
  cases hs : apiSorted env g with
  | nil =>
    rw [hs] at hlen
    exact absurd (List.length_eq_zero.1 hlen.symm) hne
  | cons k t =>
    refine ⟨k, ?_, ?_, ?_, ?_⟩
    · simp [apiKept, hs]
    · have hkmem : k ∈ g.files.map (apiEntryOf env g) :=
        (apiSorted_perm env g).subset (hs ▸ List.mem_cons_self _ _)
      rcases List.mem_map.1 hkmem with ⟨f, hf, rfl⟩
      exact hf
    · intro f hf
      have hk : (sortPy (fun a b => keyGe (apiKey a) (apiKey b))
          (g.files.map (apiEntryOf env g))).head? = some k := by
        have hk0 : (apiSorted env g).head? = some k := by simp [hs]
        exact hk0
      exact sortPy_head_max (fun a b => keyGe (apiKey a) (apiKey b))
        (fun a b => keyGe_total (apiKey a) (apiKey b))
        (fun a b c h1 h2 => keyGe_trans (apiKey a) (apiKey b) (apiKey c) h1 h2)
        (g.files.map (apiEntryOf env g)) k hk
        (apiEntryOf env g f) (List.mem_map_of_mem _ hf)
    · have hsum : ((apiSorted env g).map (fun x : ApiEntry => x.2.2)).sum
          = ((g.files.map (apiEntryOf env g)).map (fun x : ApiEntry => x.2.2)).sum :=
        ((apiSorted_perm env g).map _).sum_eq
      have hsz : ((g.files.map (apiEntryOf env g)).map (fun x : ApiEntry => x.2.2))
          = g.files.map (liveSize env) := by
        rw [List.map_map]; rfl
      rw [hsz] at hsum
      have hspace : apiGroupSpace env g = (t.map (fun x : ApiEntry => x.2.2)).sum := by
        unfold apiGroupSpace
        rw [hs]
        simpa using foldl_add_map (fun x : ApiEntry => x.2.2) t 0
      rw [hspace, ← hsum, hs, List.map_cons, List.sum_cons]
      omega

/-- C8 (claim theorem): within each group the kept file is the one ranked
first by `(pixel_count, file_size)` descending and dominates every member;
the reported space-saved equals the sum of the sizes of all non-kept files
across all groups; and the deletion path spares exactly the top-ranked
member of the same ranking, deleting the rest. -/
theorem resolver_keep_rule :
    (∀ (env : SizeEnv) (g : GroupData), g.files ≠ [] →
        ∃ k, apiKept env g = some k ∧ k.1 ∈ g.files
          ∧ (∀ f ∈ g.files, keyGe (apiKey k) (apiKey (apiEntryOf env g f)) = true)
          ∧ apiGroupSpace env g + k.2.2 = (g.files.map (liveSize env)).sum)
    ∧ (∀ (env : SizeEnv) (groups : List GroupData), (∀ g ∈ groups, g.files ≠ []) →
        api_space_saved env groups
            + (groups.map (fun g => ((apiKept env g).map (fun k => k.2.2)).getD 0)).sum
          = (groups.map (fun g => (g.files.map (liveSize env)).sum)).sum)
    ∧ (∀ (fsf : List (String × Nat)) (g : DelGroup), g.files ≠ [] →
        ∃ k, (delSorted fsf g).head? = some k ∧ k.1 ∈ g.files
          ∧ (∀ f ∈ g.files,
              keyGe (delKey fsf k) (delKey fsf (delEntry g.resolutions f)) = true)
          ∧ (delSorted fsf g).map Prod.fst = k.1 :: delLowRes fsf g
          ∧ ((delSorted fsf g).map Prod.fst).Perm g.files) := by
  refine ⟨apiGroup_keep, ?_, ?_⟩
  · intro env groups hne
    induction groups with
    | nil => simp [api_space_saved]
    | cons g rest ih =>
      have hg := apiGroup_keep env g (hne g (List.mem_cons_self _ _))
      rcases hg with ⟨k, hk, _, _, hsum⟩
      have hrest := ih (fun g2 hg2 => hne g2 (List.mem_cons_of_mem _ hg2))
      have hsplit : api_space_saved env (g :: rest)
          = apiGroupSpace env g + api_space_saved env rest := by
        unfold api_space_saved
        rw [List.foldl_cons]
        rw [foldl_add_map (apiGroupSpace env) rest (0 + apiGroupSpace env g),
          foldl_add_map (apiGroupSpace env) rest 0]
        omega
      simp only [List.map_cons, List.sum_cons, hk, Option.map_some', Option.getD_some]
      rw [hsplit]
      omega
  · intro fsf g hne
    have hperm : (delSorted fsf g).Perm (g.files.map (delEntry g.resolutions)) :=
      sortPy_perm _ _
    have hlen : (delSorted fsf g).length = g.files.length := by
      rw [hperm.length_eq, List.length_map]
    cases hs : delSorted fsf g with
    | nil =>
      rw [hs] at hlen
      exact absurd (List.length_eq_zero.1 hlen.symm) hne
    | cons k t =>
      have hfst : ((g.files.map (delEntry g.resolutions)).map Prod.fst) = g.files := by
        rw [List.map_map]
        have : (Prod.fst ∘ delEntry g.resolutions) = id := by
          funext f
          simp only [Function.comp_apply, delEntry, id_eq]
          cases delResGet g.resolutions f with
          | none => rfl
          | some r => obtain ⟨w, h, px⟩ := r; rfl
        rw [this, List.map_id]
      refine ⟨k, by simp [hs], ?_, ?_, ?_, ?_⟩
      · have hkmem : k ∈ g.files.map (delEntry g.resolutions) :=
          hperm.subset (hs ▸ List.mem_cons_self _ _)
        rcases List.mem_map.1 hkmem with ⟨f, hf, rfl⟩
        have : (delEntry g.resolutions f).1 = f := by
          simp only [delEntry]
          cases delResGet g.resolutions f with
          | none => rfl
          | some r => obtain ⟨w, h, px⟩ := r; rfl
        rw [this]
        exact hf
      · intro f hf
        have hk : (sortPy (fun a b => keyGe (delKey fsf a) (delKey fsf b))
            (g.files.map (delEntry g.resolutions))).head? = some k := by
          have hk0 : (delSorted fsf g).head? = some k := by simp [hs]
          exact hk0
        exact sortPy_head_max (fun a b => keyGe (delKey fsf a) (delKey fsf b))
          (fun a b => keyGe_total (delKey fsf a) (delKey fsf b))
          (fun a b c h1 h2 => keyGe_trans (delKey fsf a) (delKey fsf b) (delKey fsf c) h1 h2)
          (g.files.map (delEntry g.resolutions)) k hk
          (delEntry g.resolutions f) (List.mem_map_of_mem _ hf)
      · unfold delLowRes
        rw [hs]
        rfl
      · have h2 := hperm.map Prod.fst
        rw [hfst] at h2
        rw [hs] at h2
        exact h2

/-- Witness for the C8 theorem: three equal-resolution files of sizes
100, 200 and 300 bytes in one group — the 300-byte file is kept and the
reported space saved is 300 (the sum of the two non-kept sizes). -/
theorem resolver_keep_rule_witness :
    (∃ k, apiKept envC8 gC8 = some k ∧ k.1 ∈ gC8.files
        ∧ (∀ f ∈ gC8.files, keyGe (apiKey k) (apiKey (apiEntryOf envC8 gC8 f)) = true)
        ∧ apiGroupSpace envC8 gC8 + k.2.2 = (gC8.files.map (liveSize envC8)).sum)
    ∧ apiKept envC8 gC8 = some (3, (10, 10, 100), 300)
    ∧ api_space_saved envC8 [gC8] = 300 :=
  ⟨resolver_keep_rule.1 envC8 gC8 (by decide), by decide, by decide⟩

/-- C3 (counterexample): deleting an empty duplicates mapping in
move-to-folder mode with a source directory creates the `_duplicates`
folder even though nothing is moved, so the call does not leave the
filesystem untouched. -/
theorem delete_duplicates_empty_mkdir_cex :
    delete_duplicates true ["s"] [] ⟨["s"], []⟩
      = some ([], ⟨["s/_duplicates", "s"], []⟩)
    ∧ ¬ (delete_duplicates true ["s"] [] ⟨["s"], []⟩
          = some ([], (⟨["s"], []⟩ : FSState))) := by
  constructor
  · rfl
  · intro h
    have := Option.some.inj h
    have h2 : (⟨["s/_duplicates", "s"], []⟩ : FSState) = ⟨["s"], []⟩ := by
      have h1 : delete_duplicates true ["s"] [] ⟨["s"], []⟩
          = some ([], ⟨["s/_duplicates", "s"], []⟩) := rfl
      rw [h1] at h
      exact (Prod.mk.injEq _ _ _ _ ▸ Option.some.inj h).2
    simp at h2

/-- C3 (amended claim theorem): deleting an empty duplicates mapping
returns an empty deleted-files list, never moves or deletes a file, and
touches no directory except that in move-to-folder mode with at least one
source directory it still creates (if absent) the `_duplicates` folder
under the first source; in permanent-delete mode or with no source
directories the filesystem is completely untouched. -/
theorem delete_duplicates_empty (move : Bool) (srcs : List String) (fs : FSState) :
    delete_duplicates move srcs [] fs
      = some ([],
          if move ∧ srcs ≠ [] then
            ⟨insertDir ((srcs.headD "") ++ "/_duplicates") fs.dirs, fs.files⟩
          else fs)
    ∧ ((move = false ∨ srcs = []) →
        delete_duplicates move srcs [] fs = some ([], fs)) := by
  constructor
  · by_cases hc : move = true ∧ srcs ≠ []
    · simp [delete_duplicates, lowResFiles, delMkdir, delFolder, if_pos hc,
        if_pos (show (move ∧ srcs ≠ []) from hc)]
    · simp [delete_duplicates, lowResFiles, delMkdir, delFolder, if_neg hc,
        if_neg (show ¬ (move ∧ srcs ≠ []) from hc)]
  · intro h
    have hc : ¬ (move = true ∧ srcs ≠ []) := by
      rcases h with h | h
      · rintro ⟨h1, _⟩; rw [h] at h1; exact Bool.false_ne_true h1
      · rintro ⟨_, h2⟩; exact h2 h
    simp [delete_duplicates, lowResFiles, delMkdir, delFolder, if_neg hc]

/-- Witness for the amended C3 theorem at a concrete input. -/
theorem delete_duplicates_empty_witness :
    delete_duplicates false ["s"] [] ⟨["s"], [("s/a.jpg", 7)]⟩
      = some ([], ⟨["s"], [("s/a.jpg", 7)]⟩) :=
  (delete_duplicates_empty false ["s"] ⟨["s"], [("s/a.jpg", 7)]⟩).2 (Or.inl rfl)

/-! ### Collision loop and filesystem lemmas -/

/-- What a successful collision-loop run guarantees: the returned path is
unoccupied, is one of the candidate names, and is the first unoccupied
candidate from the starting counter. -/
theorem resolveDest_spec (occ : List (String × Nat)) (folder stem suffix : String) :
    ∀ (fuel k : Nat) (d : String),
      resolveDest occ folder stem suffix k fuel = some d →
      lookupA d occ = none
      ∧ ∃ j, k ≤ j ∧ d = destCand folder stem suffix j
          ∧ ∀ i, k ≤ i → i < j → lookupA (destCand folder stem suffix i) occ ≠ none := by
  intro fuel
  induction fuel with
  | zero => intro k d h; exact absurd h (by simp [resolveDest])
  | succ fuel ih =>
    intro k d h
    simp only [resolveDest] at h
    by_cases hk : lookupA (destCand folder stem suffix k) occ = none
    · rw [if_pos hk] at h
      obtain rfl : destCand folder stem suffix k = d := by injection h
      refine ⟨hk, k, Nat.le_refl k, rfl, ?_⟩
      intro i h1 h2
      exact absurd (Nat.lt_of_le_of_lt h1 h2) (Nat.lt_irrefl k)
    · rw [if_neg hk] at h
      obtain ⟨c1, j, hj1, hj2, hj3⟩ := ih (k + 1) d h
      refine ⟨c1, j, Nat.le_of_succ_le hj1, hj2, ?_⟩
      intro i h1 h2
      rcases Nat.lt_or_ge i (k + 1) with h3 | h3
      · obtain rfl : i = k := Nat.le_antisymm (Nat.lt_succ_iff.1 h3) h1
        exact hk
      · exact hj3 i h3 h2

/-- Removing one key leaves lookups of other keys unchanged. -/
theorem lookupA_removeA_ne (p q : String) (hne : p ≠ q) :
    ∀ l : List (String × Nat), lookupA p (removeA q l) = lookupA p l := by
  intro l
  induction l with
  | nil => rfl
  | cons kv rest ih =>
    obtain ⟨k, c⟩ := kv
    by_cases hk : k = q
    · subst hk
      simp only [removeA, if_pos rfl, if_true, lookupA,
        if_neg (show ¬ (k = p) from fun h => hne h.symm)]
    · simp only [removeA, if_neg hk, lookupA]
      by_cases hp : k = p
      · rw [if_pos hp, if_pos hp]
      · rw [if_neg hp, if_neg hp, ih]

/-- A freshly generated person key is never one of the sentinel labels. -/
theorem person_key_ne_sentinel (s : String) :
    ("Person_" ++ s) ≠ "Multiple Persons" ∧ ("Person_" ++ s) ≠ "Not Detected Persons" := by
  obtain ⟨d⟩ := s
  constructor
  · intro h
    have h3 := congrArg String.data h
    simp [String.data] at h3
  · intro h
    have h3 := congrArg String.data h
    simp [String.data] at h3

/-! ### Organizer error-handling theorems (C2) -/

/-- When image loading raises, `detect_faces` swallows the exception and
`process_image` labels the image `"Not Detected Persons"` without touching
the clustering state — and without recording any error anywhere. -/
theorem process_image_detect_error (env : FaceEnv) (cfg : ProcessorCfg)
    (st : PState) (p : String) (e : String) (he : env.load p = Except.error e) :
    process_image env cfg st p = ("Not Detected Persons", st) := by
  unfold process_image detect_faces
  rw [he]
  rfl

/-- Batch-loop invariant when detection raises for every file and copies
succeed: each file adds one to `processed` and `no_faces` and changes
nothing else. -/
theorem orgFold_detect_errors (env : FaceEnv) (cfg : ProcessorCfg)
    (output_dir : String) :
    ∀ (files : List SrcFile) (acc acc2 : OrgAcc),
      (∀ f ∈ files, ∃ e, env.load f.path = Except.error e) →
      (∀ f ∈ files, ∀ d, env.copyErr f.path d = none) →
      files.foldlM (orgStep env cfg output_dir) acc = some acc2 →
      acc2.processed = acc.processed + files.length
      ∧ acc2.no_faces = acc.no_faces + files.length
      ∧ acc2.faces_detected = acc.faces_detected
      ∧ acc2.errors = acc.errors
      ∧ acc2.st = acc.st := by
  intro files
  induction files with
  | nil =>
    intro acc acc2 _ _ h
    simp only [List.foldlM_nil] at h
    obtain rfl : acc = acc2 := by injection h
    simp
  | cons f rest ih =>
    intro acc acc2 hdet hcopy h
    obtain ⟨e, he⟩ := hdet f (List.mem_cons_self _ _)
    simp only [List.foldlM_cons] at h
    have hstep : orgStep env cfg output_dir acc f
        = match resolveDest acc.fs.files (output_dir ++ "/" ++ "Not Detected Persons")
            f.stem f.suffix 0 (acc.fs.files.length + 2) with
          | none => none
          | some dest =>
            some ⟨acc.st, ⟨insertDir (output_dir ++ "/" ++ "Not Detected Persons")
                acc.fs.dirs, (dest, f.content) :: acc.fs.files⟩,
              acc.processed + 1, acc.faces_detected, acc.no_faces + 1, acc.errors⟩ := by
      unfold orgStep
      rw [process_image_detect_error env cfg acc.st f.path e he]
      cases hr : resolveDest acc.fs.files (output_dir ++ "/" ++ "Not Detected Persons")
          f.stem f.suffix 0 (acc.fs.files.length + 2) with
      | none => simp [hr]
      | some dest =>
        simp only [hr]
        rw [hcopy f (List.mem_cons_self _ _) dest]
        simp
    rw [hstep] at h
    cases hr : resolveDest acc.fs.files (output_dir ++ "/" ++ "Not Detected Persons")
        f.stem f.suffix 0 (acc.fs.files.length + 2) with
    | none =>
      rw [hr] at h
      simp at h
    | some dest =>
      rw [hr] at h
      simp only [Option.bind_some] at h
      obtain ⟨c1, c2, c3, c4, c5⟩ := ih _ acc2
        (fun g hg => hdet g (List.mem_cons_of_mem _ hg))
        (fun g hg => hcopy g (List.mem_cons_of_mem _ hg)) h
      refine ⟨?_, ?_, ?_, ?_, ?_⟩
      · rw [c1]; simp; omega
      · rw [c2]; simp; omega
      · rw [c3]
      · rw [c4]
      · rw [c5]

/-- C2 (amended claim theorem): when detection raises for every file, the
batch continues and each image falls back to `"Not Detected Persons"`,
but no error entry is recorded — the exception is swallowed inside
`detect_faces`/`process_image`; with a passing dependency preflight and
successful copies, a run over `N` files ends with `processed = N`,
`no_faces = N`, `faces_detected = 0`, and an empty error list. -/
theorem organize_all_detect_fail (env : FaceEnv) (cfg : ProcessorCfg)
    (output_dir : String) (files : List SrcFile) (st0 : PState) (fs0 : FSState)
    (r : OrgResult) (stF : PState) (fsF : FSState)
    (hdet : ∀ f ∈ files, ∃ e, env.load f.path = Except.error e)
    (hcopy : ∀ f ∈ files, ∀ d, env.copyErr f.path d = none)
    (hdlib : env.dlibOk = true) (hfr : env.frTestErr = none)
    (hrun : organize_images env cfg output_dir files st0 fs0 = some (r, stF, fsF)) :
    r.processed = files.length ∧ r.no_faces = files.length
      ∧ r.faces_detected = 0 ∧ r.errors = [] ∧ r.total = files.length := by
  unfold organize_images at hrun
  rw [hdlib, hfr] at hrun
  simp only [List.append_nil, if_true] at hrun
  cases hfold : files.foldlM (orgStep env cfg output_dir)
      ⟨st0, ⟨insertDir output_dir fs0.dirs, fs0.files⟩, 0, 0, 0, []⟩ with
  | none => rw [hfold] at hrun; exact absurd hrun (by simp)
  | some acc =>
    rw [hfold] at hrun
    simp only [Option.some.injEq, Prod.mk.injEq] at hrun
    obtain ⟨hr, _, _⟩ := hrun
    obtain ⟨c1, c2, c3, c4, _⟩ := orgFold_detect_errors env cfg output_dir files
      _ acc hdet hcopy hfold
    subst hr
    refine ⟨?_, ?_, ?_, ?_, rfl⟩
    · simpa using c1
    · simpa using c2
    · simpa using c3
    · simpa using c4

/-- C2 (counterexample): a one-file run where detection throws — the run
returns `processed = 1`, `no_faces = 1`, and an **empty** error list (the
claim asserts it is non-empty): the detection exception is swallowed
inside `detect_faces` and never reaches the error list. -/
theorem organize_detection_error_silent :
    organize_images envC2 defaultCfg "out" [fC2] ⟨[], 0⟩ ⟨[], []⟩
      = some (⟨1, 1, 0, 0, 1, []⟩, ⟨[], 0⟩,
          ⟨["out/Not Detected Persons", "out"],
           [("out/Not Detected Persons/a.jpg", 1)]⟩)
    ∧ envC2.load fC2.path = Except.error "boom" := by
  exact ⟨by decide, rfl⟩

/-- Witness for the amended C2 theorem at a concrete input. -/
theorem organize_all_detect_fail_witness :
    (⟨1, 1, 0, 0, 1, []⟩ : OrgResult).processed = 1
    ∧ (⟨1, 1, 0, 0, 1, []⟩ : OrgResult).no_faces = 1
    ∧ (⟨1, 1, 0, 0, 1, []⟩ : OrgResult).faces_detected = 0
    ∧ (⟨1, 1, 0, 0, 1, []⟩ : OrgResult).errors = []
    ∧ (⟨1, 1, 0, 0, 1, []⟩ : OrgResult).total = 1 := by
  have h := organize_all_detect_fail envC2 defaultCfg "out" [fC2] ⟨[], 0⟩ ⟨[], []⟩
    (⟨1, 1, 0, 0, 1, []⟩ : OrgResult) ⟨[], 0⟩
    ⟨["out/Not Detected Persons", "out"], [("out/Not Detected Persons/a.jpg", 1)]⟩
    (by intro f hf; exact ⟨"boom", by simp only [List.mem_singleton] at hf; subst hf; rfl⟩)
    (by intro f hf d; rfl) rfl rfl (by decide)
  exact h

/-! ### Face matching theorems (C7) -/

/-- `identify_person` returns the first known cluster within tolerance, in
insertion order. -/
theorem identify_person_find (env : FaceEnv) (e : Nat) (tol : ℚ) :
    ∀ kf : List (String × Nat),
      identify_person env kf e tol
        = (kf.find? (fun pr => decide (env.dist pr.2 e ≤ tol))).map Prod.fst := by
  intro kf
  induction kf with
  | nil => rfl
  | cons pr rest ih =>
    obtain ⟨name, k⟩ := pr
    by_cases hd : env.dist k e ≤ tol
    · simp [identify_person, if_pos hd, List.find?, hd]
    · simp [identify_person, if_neg hd, List.find?, hd, ih]

/-- The per-face loop only appends to `known_faces`: existing
representatives are never updated or removed. -/
theorem faceLoop_extends (env : FaceEnv) (image : Nat) :
    ∀ (locs : List Nat) (st : PState) (persons : List String),
      ∃ ext, (faceLoop env image locs st persons).1.known_faces
        = st.known_faces ++ ext := by
  intro locs
  induction locs with
  | nil => intro st persons; exact ⟨[], by simp [faceLoop]⟩
  | cons loc rest ih =>
    intro st persons
    simp only [faceLoop]
    cases hge : get_face_encoding env image loc with
    | none => exact ih st persons
    | some enc =>
      cases hid : identify_person env st.known_faces enc processTolerance with
      | some name => simpa [hid] using ih st (insertSet persons name)
      | none =>
        obtain ⟨ext, hext⟩ := ih
          ⟨st.known_faces
            ++ [("Person_" ++ Nat.repr (st.person_counter + 1), enc)],
           st.person_counter + 1⟩ (insertSet persons
            ("Person_" ++ Nat.repr (st.person_counter + 1)))
        exact ⟨("Person_" ++ Nat.repr (st.person_counter + 1), enc) :: ext,
          by simp [hid, hext]⟩

/-- C7 (claim theorem): (1) face matching scans existing clusters in
insertion order and the first cluster within tolerance wins; (2) distance
exactly equal to the `0.5` tolerance is a match; (3) distance above it is
not; (4) on a no-match the new cluster `Person_{counter+1}` is allocated
with this embedding as its representative, while a match leaves the state
untouched; (5) stored representatives are never updated. -/
theorem face_match_rule :
    (∀ (env : FaceEnv) (kf : List (String × Nat)) (e : Nat) (tol : ℚ),
        identify_person env kf e tol
          = (kf.find? (fun pr => decide (env.dist pr.2 e ≤ tol))).map Prod.fst)
    ∧ (∀ (env : FaceEnv) (name : String) (k e : Nat) (rest : List (String × Nat)),
        env.dist k e ≤ mkRat 1 2 →
        identify_person env ((name, k) :: rest) e (mkRat 1 2) = some name)
    ∧ (∀ (env : FaceEnv) (name : String) (k e : Nat),
        ¬ env.dist k e ≤ mkRat 1 2 →
        identify_person env [(name, k)] e (mkRat 1 2) = none)
    ∧ (∀ (env : FaceEnv) (cfg : ProcessorCfg) (st : PState) (p : String)
        (loc image enc : Nat),
        detect_faces env cfg p = ([loc], some image) →
        get_face_encoding env image loc = some enc →
        (identify_person env st.known_faces enc (mkRat 1 2) = none →
          process_image env cfg st p
            = ("Person_" ++ Nat.repr (st.person_counter + 1),
               ⟨st.known_faces
                 ++ [("Person_" ++ Nat.repr (st.person_counter + 1), enc)],
                st.person_counter + 1⟩))
        ∧ (∀ name, identify_person env st.known_faces enc (mkRat 1 2) = some name →
            process_image env cfg st p = (name, st)))
    ∧ (∀ (env : FaceEnv) (cfg : ProcessorCfg) (st : PState) (p : String),
        ∃ ext, (process_image env cfg st p).2.known_faces
          = st.known_faces ++ ext) := by
  refine ⟨fun env kf e tol => identify_person_find env e tol kf, ?_, ?_, ?_, ?_⟩
  · intro env name k e rest h
    simp [identify_person, if_pos h]
  · intro env name k e h
    simp [identify_person, if_neg h]
  · intro env cfg st p loc image enc hdet henc
    constructor
    · intro hid
      simp only [process_image, hdet, List.isEmpty, faceLoop, henc,
        processTolerance, hid, insertSet]
      simp
    · intro name hid
      simp only [process_image, hdet, List.isEmpty, faceLoop, henc,
        processTolerance, hid, insertSet]
      simp
  · intro env cfg st p
    unfold process_image
    cases hd : detect_faces env cfg p with
    | mk locs imgO =>
      cases imgO with
      | none => exact ⟨[], by simp⟩
      | some image =>
        by_cases hloc : locs.isEmpty
        · simp only [if_pos hloc]
          exact ⟨[], by simp⟩
        · simp only [if_neg hloc]
          obtain ⟨ext, hext⟩ := faceLoop_extends env image locs st []
          cases hfl : faceLoop env image locs st [] with
          | mk st2 persons =>
            rw [hfl] at hext
            cases persons with
            | nil => exact ⟨ext, hext⟩
            | cons p1 ps =>
              cases ps with
              | nil => exact ⟨ext, hext⟩
              | cons p2 ps2 => exact ⟨ext, hext⟩

/-- Witness for the C7 theorem: with one existing cluster at distance
exactly `0.5` the embedding matches it, at `0.51` it does not and
`Person_2` is allocated with the new embedding as its representative. -/
theorem face_match_rule_witness :
    identify_person envC7 [("Person_1", 10)] 1 (mkRat 1 2) = some "Person_1"
    ∧ identify_person envC7 [("Person_1", 10)] 2 (mkRat 1 2) = none
    ∧ process_image envC7 defaultCfg ⟨[("Person_1", 10)], 1⟩ "img2.jpg"
        = ("Person_2", ⟨[("Person_1", 10), ("Person_2", 2)], 2⟩) :=
  ⟨face_match_rule.2.1 envC7 "Person_1" 10 1 [] (by decide),
   face_match_rule.2.2.1 envC7 "Person_1" 10 2 (by decide),
   (face_match_rule.2.2.2.1 envC7 defaultCfg ⟨[("Person_1", 10)], 1⟩ "img2.jpg"
      0 5 2 (by decide) (by decide)).1 (by decide)⟩

/-! ### Person-counter theorems (C10) -/

/-- The per-face loop keeps `known_faces` size equal to the person
counter: each allocation bumps both by one. -/
theorem faceLoop_len_inv (env : FaceEnv) (image : Nat) :
    ∀ (locs : List Nat) (st : PState) (persons : List String),
      st.known_faces.length = st.person_counter →
      (faceLoop env image locs st persons).1.known_faces.length
        = (faceLoop env image locs st persons).1.person_counter := by
  intro locs
  induction locs with
  | nil => intro st persons h; exact h
  | cons loc rest ih =>
    intro st persons h
    simp only [faceLoop]
    cases hge : get_face_encoding env image loc with
    | none => exact ih st persons h
    | some enc =>
      cases hid : identify_person env st.known_faces enc processTolerance with
      | some name => simpa [hid] using ih st (insertSet persons name) h
      | none =>
        have h2 : (PState.mk (st.known_faces
            ++ [("Person_" ++ Nat.repr (st.person_counter + 1), enc)])
            (st.person_counter + 1)).known_faces.length
            = st.person_counter + 1 := by
          simp [h]
        simpa [hid] using ih
          ⟨st.known_faces
            ++ [("Person_" ++ Nat.repr (st.person_counter + 1), enc)],
           st.person_counter + 1⟩
          (insertSet persons ("Person_" ++ Nat.repr (st.person_counter + 1))) h2

/-- Every key of `known_faces` after the per-face loop was already present
or has the `Person_{c}` shape. -/
theorem faceLoop_keys (env : FaceEnv) (image : Nat) :
    ∀ (locs : List Nat) (st : PState) (persons : List String),
      ∀ pr ∈ (faceLoop env image locs st persons).1.known_faces,
        pr ∈ st.known_faces ∨ ∃ c, pr.1 = "Person_" ++ Nat.repr c := by
  intro locs
  induction locs with
  | nil => intro st persons pr hpr; exact Or.inl hpr
  | cons loc rest ih =>
    intro st persons pr hpr
    simp only [faceLoop] at hpr
    cases hge : get_face_encoding env image loc with
    | none =>
      rw [hge] at hpr
      exact ih st persons pr hpr
    | some enc =>
      rw [hge] at hpr
      simp only [] at hpr
      cases hid : identify_person env st.known_faces enc processTolerance with
      | some name =>
        rw [hid] at hpr
        exact ih st (insertSet persons name) pr hpr
      | none =>
        rw [hid] at hpr
        rcases ih _ _ pr hpr with hin | hnew
        · rcases List.mem_append.1 hin with hin | hin
          · exact Or.inl hin
          · simp only [List.mem_singleton] at hin
            subst hin
            exact Or.inr ⟨st.person_counter + 1, rfl⟩
        · exact Or.inr hnew

/-- `process_image` preserves the `known_faces`-size/person-counter
invariant. -/
theorem process_image_len_inv (env : FaceEnv) (cfg : ProcessorCfg)
    (st : PState) (p : String) (h : st.known_faces.length = st.person_counter) :
    (process_image env cfg st p).2.known_faces.length
      = (process_image env cfg st p).2.person_counter := by
  unfold process_image
  cases hd : detect_faces env cfg p with
  | mk locs imgO =>
    cases imgO with
    | none => exact h
    | some image =>
      by_cases hloc : locs.isEmpty
      · simp only [if_pos hloc]
        exact h
      · simp only [if_neg hloc]
        have h2 := faceLoop_len_inv env image locs st [] h
        cases hfl : faceLoop env image locs st [] with
        | mk st2 persons =>
          rw [hfl] at h2
          cases persons with
          | nil => exact h2
          | cons p1 ps =>
            cases ps with
            | nil => exact h2
            | cons p2 ps2 => exact h2

/-- `process_image` only adds `Person_{c}`-shaped keys. -/
theorem process_image_keys (env : FaceEnv) (cfg : ProcessorCfg)
    (st : PState) (p : String) :
    ∀ pr ∈ (process_image env cfg st p).2.known_faces,
      pr ∈ st.known_faces ∨ ∃ c, pr.1 = "Person_" ++ Nat.repr c := by
  intro pr hpr
  unfold process_image at hpr
  cases hd : detect_faces env cfg p with
  | mk locs imgO =>
    rw [hd] at hpr
    cases imgO with
    | none => exact Or.inl hpr
    | some image =>
      simp only [] at hpr
      by_cases hloc : locs.isEmpty
      · rw [if_pos hloc] at hpr
        exact Or.inl hpr
      · rw [if_neg hloc] at hpr
        have hkeys := faceLoop_keys env image locs st []
        cases hfl : faceLoop env image locs st [] with
        | mk st2 persons =>
          rw [hfl] at hkeys hpr
          cases persons with
          | nil => exact hkeys pr hpr
          | cons p1 ps =>
            cases ps with
            | nil => exact hkeys pr hpr
            | cons p2 ps2 => exact hkeys pr hpr

/-- A successful batch step carries the clustering state of
`process_image`. -/
theorem orgStep_st (env : FaceEnv) (cfg : ProcessorCfg) (od : String)
    (acc acc2 : OrgAcc) (f : SrcFile)
    (h : orgStep env cfg od acc f = some acc2) :
    acc2.st = (process_image env cfg acc.st f.path).2 := by
  cases hpi : process_image env cfg acc.st f.path with
  | mk folder_name st2 =>
    unfold orgStep at h
    rw [hpi] at h
    cases hr : resolveDest acc.fs.files (od ++ "/" ++ folder_name) f.stem f.suffix 0
        (acc.fs.files.length + 2) with
    | none => simp [hr] at h
    | some dest =>
      cases hc : env.copyErr f.path dest with
      | some e =>
        simp [hr, hc] at h
        subst h
        rfl
      | none =>
        simp [hr, hc] at h
        subst h
        rfl

/-- Batch-loop invariants for the clustering state: the size/counter
invariant is preserved, and every final key was initial or has the
`Person_{c}` shape. -/
theorem orgFold_state (env : FaceEnv) (cfg : ProcessorCfg) (od : String) :
    ∀ (files : List SrcFile) (acc acc2 : OrgAcc),
      files.foldlM (orgStep env cfg od) acc = some acc2 →
      ((acc.st.known_faces.length = acc.st.person_counter) →
          acc2.st.known_faces.length = acc2.st.person_counter)
      ∧ (∀ pr ∈ acc2.st.known_faces,
          pr ∈ acc.st.known_faces ∨ ∃ c, pr.1 = "Person_" ++ Nat.repr c) := by
  intro files
  induction files with
  | nil =>
    intro acc acc2 h
    simp only [List.foldlM_nil] at h
    obtain rfl : acc = acc2 := by injection h
    exact ⟨fun h2 => h2, fun pr hpr => Or.inl hpr⟩
  | cons f rest ih =>
    intro acc acc2 h
    simp only [List.foldlM_cons] at h
    cases hstep : orgStep env cfg od acc f with
    | none => rw [hstep] at h; exact absurd h (by simp)
    | some acc1 =>
      rw [hstep] at h
      have hst := orgStep_st env cfg od acc acc1 f hstep
      obtain ⟨ih1, ih2⟩ := ih acc1 acc2 h
      constructor
      · intro hinv
        refine ih1 ?_
        rw [hst]
        exact process_image_len_inv env cfg acc.st f.path hinv
      · intro pr hpr
        rcases ih2 pr hpr with hin | hnew
        · rw [hst] at hin
          exact process_image_keys env cfg acc.st f.path pr hin
        · exact Or.inr hnew

/-- C10 (claim theorem): the returned `person_folders` equals the size of
the final `known_faces` map, which always equals the person counter (given
the constructor's initial state invariant); sentinel labels are never keys
of that map, hence never counted; and the count is not the number of
person folders on disk — in the concrete two-person single-image run the
result reports `person_folders = 2` while the only directories created are
`out` and `out/Multiple Persons`. -/
theorem person_folder_count :
    (∀ (env : FaceEnv) (cfg : ProcessorCfg) (od : String) (files : List SrcFile)
        (st0 : PState) (fs0 : FSState) (r : OrgResult) (stF : PState) (fsF : FSState),
        organize_images env cfg od files st0 fs0 = some (r, stF, fsF) →
        r.person_folders = stF.known_faces.length
        ∧ (st0.known_faces.length = st0.person_counter →
            stF.known_faces.length = stF.person_counter
            ∧ r.person_folders = stF.person_counter)
        ∧ ((∀ pr ∈ st0.known_faces,
              pr.1 ≠ "Multiple Persons" ∧ pr.1 ≠ "Not Detected Persons") →
            ∀ pr ∈ stF.known_faces,
              pr.1 ≠ "Multiple Persons" ∧ pr.1 ≠ "Not Detected Persons"))
    ∧ organize_images envC10 defaultCfg "out" [fC10] ⟨[], 0⟩ ⟨[], []⟩
        = some (⟨1, 1, 2, 1, 0, []⟩, ⟨[("Person_1", 1), ("Person_2", 2)], 2⟩,
            ⟨["out/Multiple Persons", "out"],
             [("out/Multiple Persons/two.jpg", 9)]⟩) := by
  constructor
  · intro env cfg od files st0 fs0 r stF fsF hrun
    unfold organize_images at hrun
    cases hfold : files.foldlM (orgStep env cfg od)
        ⟨st0, ⟨insertDir od fs0.dirs, fs0.files⟩, 0, 0, 0,
          ((if env.dlibOk then []
            else ["dlib library not installed - face detection cannot work"])
          ++ (match env.frTestErr with
              | some e => ["face_recognition library error: "
                  ++ ("face_recognition test failed: " ++ strTake e 200)]
              | none => []))⟩ with
    | none => rw [hfold] at hrun; exact absurd hrun (by simp)
    | some acc =>
      rw [hfold] at hrun
      simp only [Option.some.injEq, Prod.mk.injEq] at hrun
      obtain ⟨hr, hst, _⟩ := hrun
      obtain ⟨hinv, hkeys⟩ := orgFold_state env cfg od files _ acc hfold
      subst hr
      subst hst
      refine ⟨rfl, ?_, ?_⟩
      · intro h0
        have h1 := hinv h0
        exact ⟨h1, h1⟩
      · intro h0 pr hpr
        rcases hkeys pr hpr with hin | ⟨c, hc⟩
        · exact h0 pr hin
        · rw [hc]
          exact person_key_ne_sentinel (Nat.repr c)
  · decide

/-- Witness for the C10 theorem at the concrete two-person run. -/
theorem person_folder_count_witness :
    (⟨1, 1, 2, 1, 0, []⟩ : OrgResult).person_folders
        = (⟨[("Person_1", 1), ("Person_2", 2)], 2⟩ : PState).known_faces.length
    ∧ (⟨[("Person_1", 1), ("Person_2", 2)], 2⟩ : PState).known_faces.length
        = (⟨[("Person_1", 1), ("Person_2", 2)], 2⟩ : PState).person_counter
    ∧ ∀ pr ∈ (⟨[("Person_1", 1), ("Person_2", 2)], 2⟩ : PState).known_faces,
        pr.1 ≠ "Multiple Persons" ∧ pr.1 ≠ "Not Detected Persons" := by
  have h := person_folder_count.1 envC10 defaultCfg "out" [fC10] ⟨[], 0⟩ ⟨[], []⟩
    ⟨1, 1, 2, 1, 0, []⟩ ⟨[("Person_1", 1), ("Person_2", 2)], 2⟩
    ⟨["out/Multiple Persons", "out"], [("out/Multiple Persons/two.jpg", 9)]⟩
    person_folder_count.2
  exact ⟨h.1, (h.2.1 rfl).1, h.2.2 (by simp)⟩

/-! ### Collision-safe naming theorems (C9) -/

/-- One batch step of the organizer never disturbs an existing
destination-tree binding: the copy goes to a collision-free name. -/
theorem orgStep_preserve (env : FaceEnv) (cfg : ProcessorCfg) (od : String)
    (acc acc2 : OrgAcc) (f : SrcFile)
    (h : orgStep env cfg od acc f = some acc2) :
    ∀ p c, lookupA p acc.fs.files = some c → lookupA p acc2.fs.files = some c := by
  intro p c hp
  cases hpi : process_image env cfg acc.st f.path with
  | mk folder_name st2 =>
    unfold orgStep at h
    rw [hpi] at h
    cases hr : resolveDest acc.fs.files (od ++ "/" ++ folder_name) f.stem f.suffix 0
        (acc.fs.files.length + 2) with
    | none => simp [hr] at h
    | some dest =>
      have hfresh := (resolveDest_spec acc.fs.files (od ++ "/" ++ folder_name)
        f.stem f.suffix (acc.fs.files.length + 2) 0 dest hr).1
      cases hc : env.copyErr f.path dest with
      | some e =>
        simp [hr, hc] at h
        subst h
        exact hp
      | none =>
        simp [hr, hc] at h
        subst h
        show lookupA p ((dest, f.content) :: acc.fs.files) = some c
        simp only [lookupA]
        rw [if_neg]
        · exact hp
        · intro he
          rw [he] at hfresh
          rw [hfresh] at hp
          exact Option.noConfusion hp

/-- The whole organizer batch preserves existing destination-tree
bindings. -/
theorem orgFold_preserve (env : FaceEnv) (cfg : ProcessorCfg) (od : String) :
    ∀ (files : List SrcFile) (acc acc2 : OrgAcc),
      files.foldlM (orgStep env cfg od) acc = some acc2 →
      ∀ p c, lookupA p acc.fs.files = some c → lookupA p acc2.fs.files = some c := by
  intro files
  induction files with
  | nil =>
    intro acc acc2 h
    simp only [List.foldlM_nil] at h
    obtain rfl : acc = acc2 := by injection h
    exact fun p c hp => hp
  | cons f rest ih =>
    intro acc acc2 h p c hp
    simp only [List.foldlM_cons] at h
    cases hstep : orgStep env cfg od acc f with
    | none => rw [hstep] at h; exact absurd h (by simp)
    | some acc1 =>
      rw [hstep] at h
      exact ih acc1 acc2 h p c (orgStep_preserve env cfg od acc acc1 f hstep p c hp)

/-- The up-front mkdir of `delete_duplicates` does not touch the files. -/
theorem delMkdir_files (move : Bool) (srcs : List String) (fs : FSState) :
    (delMkdir move srcs fs).files = fs.files := by
  unfold delMkdir
  cases delFolder move srcs with
  | none => rfl
  | some d => rfl

/-- One deletion step: the deleted list only grows, and an existing
binding either survives untouched or belongs to the moved/unlinked
duplicate itself (which is then recorded as deleted). -/
theorem delStep_preserve (move : Bool) (folder : Option String)
    (st st' : List DPath × FSState) (dup : DPath)
    (h : delStep move folder st dup = some st') :
    (∀ x ∈ st.1, x ∈ st'.1)
    ∧ ∀ p c, lookupA p st.2.files = some c →
        lookupA p st'.2.files = some c ∨ (p = dup.render ∧ dup ∈ st'.1) := by
  unfold delStep at h
  by_cases hm : move = true
  · rw [if_pos hm] at h
    cases folder with
    | none =>
      obtain rfl : st = st' := by injection h
      exact ⟨fun x hx => hx, fun p c hp => Or.inl hp⟩
    | some d =>
      cases hr : resolveDest st.2.files d dup.stem dup.suffix 0
          (st.2.files.length + 2) with
      | none => simp [hr] at h
      | some dest =>
        have hfresh := (resolveDest_spec st.2.files d dup.stem dup.suffix
          (st.2.files.length + 2) 0 dest hr).1
        cases hl : lookupA dup.render st.2.files with
        | none =>
          simp [hr, hl] at h
          subst h
          exact ⟨fun x hx => hx, fun p c hp => Or.inl hp⟩
        | some c0 =>
          simp [hr, hl] at h
          subst h
          refine ⟨fun x hx => List.mem_append_left _ hx, ?_⟩
          intro p c hp
          by_cases hpd : p = dup.render
          · exact Or.inr ⟨hpd, List.mem_append_right _ (List.mem_singleton.2 rfl)⟩
          · refine Or.inl ?_
            show lookupA p ((dest, c0) :: removeA dup.render st.2.files) = some c
            simp only [lookupA]
            rw [if_neg]
            · rw [lookupA_removeA_ne p dup.render hpd]
              exact hp
            · intro he
              rw [he] at hfresh
              rw [hfresh] at hp
              exact Option.noConfusion hp
  · rw [if_neg hm] at h
    cases hl : lookupA dup.render st.2.files with
    | none =>
      simp [hl] at h
      subst h
      exact ⟨fun x hx => hx, fun p c hp => Or.inl hp⟩
    | some c0 =>
      simp [hl] at h
      subst h
      refine ⟨fun x hx => List.mem_append_left _ hx, ?_⟩
      intro p c hp
      by_cases hpd : p = dup.render
      · exact Or.inr ⟨hpd, List.mem_append_right _ (List.mem_singleton.2 rfl)⟩
      · refine Or.inl ?_
        show lookupA p (removeA dup.render st.2.files) = some c
        rw [lookupA_removeA_ne p dup.render hpd]
        exact hp

/-- The whole deletion loop: the deleted list only grows and a binding
either survives or its path is recorded in the deleted list. -/
theorem delFold_preserve (move : Bool) (folder : Option String) :
    ∀ (lows : List DPath) (st out : List DPath × FSState),
      List.foldlM (delStep move folder) st lows = some out →
      (∀ x ∈ st.1, x ∈ out.1)
      ∧ ∀ p c, lookupA p st.2.files = some c →
          lookupA p out.2.files = some c ∨ p ∈ out.1.map DPath.render := by
  intro lows
  induction lows with
  | nil =>
    intro st out h
    simp only [List.foldlM_nil] at h
    obtain rfl : st = out := by injection h
    exact ⟨fun x hx => hx, fun p c hp => Or.inl hp⟩
  | cons dup rest ih =>
    intro st out h
    simp only [List.foldlM_cons] at h
    cases hstep : delStep move folder st dup with
    | none => rw [hstep] at h; exact absurd h (by simp)
    | some st1 =>
      rw [hstep] at h
      obtain ⟨hmono1, hpres1⟩ := delStep_preserve move folder st st1 dup hstep
      obtain ⟨hmono2, hpres2⟩ := ih st1 out h
      refine ⟨fun x hx => hmono2 x (hmono1 x hx), ?_⟩
      intro p c hp
      rcases hpres1 p c hp with hp1 | ⟨hpd, hdmem⟩
      · exact hpres2 p c hp1
      · exact Or.inr (List.mem_map.2 ⟨dup, hmono2 dup hdmem, hpd.symm⟩)

/-- C9 (claim theorem): (1) the collision loop returns an unoccupied
destination — the original name when free, otherwise the first free
`stem_counter{suffix}` candidate; (2) the organizer's copy never
overwrites: every pre-existing destination-tree binding survives an
`organize_images` run; (3) the duplicate move never overwrites: a
pre-existing binding survives `delete_duplicates` unless it is itself one
of the moved/unlinked duplicates, reported in the deleted list. -/
theorem collision_safe_naming :
    (∀ (occ : List (String × Nat)) (folder stem suffix : String)
        (fuel k : Nat) (d : String),
        resolveDest occ folder stem suffix k fuel = some d →
        lookupA d occ = none
        ∧ ∃ j, k ≤ j ∧ d = destCand folder stem suffix j
            ∧ ∀ i, k ≤ i → i < j → lookupA (destCand folder stem suffix i) occ ≠ none)
    ∧ (∀ (env : FaceEnv) (cfg : ProcessorCfg) (od : String) (files : List SrcFile)
        (st0 : PState) (fs0 : FSState) (r : OrgResult) (stF : PState) (fsF : FSState),
        organize_images env cfg od files st0 fs0 = some (r, stF, fsF) →
        ∀ p c, lookupA p fs0.files = some c → lookupA p fsF.files = some c)
    ∧ (∀ (move : Bool) (srcs : List String) (dups : List DelGroup) (fs : FSState)
        (del : List DPath) (fsF : FSState),
        delete_duplicates move srcs dups fs = some (del, fsF) →
        ∀ p c, lookupA p fs.files = some c →
          lookupA p fsF.files = some c ∨ p ∈ del.map DPath.render) := by
  refine ⟨resolveDest_spec, ?_, ?_⟩
  · intro env cfg od files st0 fs0 r stF fsF hrun p c hp
    unfold organize_images at hrun
    cases hfold : files.foldlM (orgStep env cfg od)
        ⟨st0, ⟨insertDir od fs0.dirs, fs0.files⟩, 0, 0, 0,
          ((if env.dlibOk then []
            else ["dlib library not installed - face detection cannot work"])
          ++ (match env.frTestErr with
              | some e => ["face_recognition library error: "
                  ++ ("face_recognition test failed: " ++ strTake e 200)]
              | none => []))⟩ with
    | none => rw [hfold] at hrun; exact absurd hrun (by simp)
    | some acc =>
      rw [hfold] at hrun
      simp only [Option.some.injEq, Prod.mk.injEq] at hrun
      obtain ⟨_, _, hfs⟩ := hrun
      subst hfs
      exact orgFold_preserve env cfg od files _ acc hfold p c hp
  · intro move srcs dups fs del fsF hrun p c hp
    unfold delete_duplicates at hrun
    by_cases h0 : lowResFiles (delMkdir move srcs fs).files dups = []
    · rw [if_pos h0] at hrun
      simp only [Option.some.injEq, Prod.mk.injEq] at hrun
      obtain ⟨_, hfs⟩ := hrun
      subst hfs
      rw [delMkdir_files]
      exact Or.inl hp
    · rw [if_neg h0] at hrun
      have hp2 : lookupA p ((([] : List DPath), delMkdir move srcs fs)).2.files
          = some c := by
        rw [delMkdir_files]
        exact hp
      have h2 := (delFold_preserve move (delFolder move srcs) _ _ (del, fsF) hrun).2
        p c hp2
      exact h2

/-- Witness for the C9 theorem: a colliding name gets the `_1` suffix and
lands on an unoccupied path; an organizer run and a duplicate-move run
both leave an unrelated pre-existing file untouched. -/
theorem collision_safe_naming_witness :
    (lookupA "s/_duplicates/b_1.jpg" [("s/_duplicates/b.jpg", 3)] = none
      ∧ ∃ j, 0 ≤ j ∧ "s/_duplicates/b_1.jpg" = destCand "s/_duplicates" "b" ".jpg" j
          ∧ ∀ i, 0 ≤ i → i < j →
              lookupA (destCand "s/_duplicates" "b" ".jpg" i)
                [("s/_duplicates/b.jpg", 3)] ≠ none)
    ∧ lookupA "keep.jpg"
        (⟨["out/Multiple Persons", "out"],
          [("out/Multiple Persons/two.jpg", 9), ("keep.jpg", 5)]⟩ : FSState).files
        = some 5
    ∧ (lookupA "k"
        (⟨["s/_duplicates", "s"],
          [("s/_duplicates/b.jpg", 20), ("s/a.jpg", 10), ("k", 5)]⟩ : FSState).files
          = some 5
        ∨ "k" ∈ ([dpB] : List DPath).map DPath.render) := by
  refine ⟨?_, ?_, ?_⟩
  · exact collision_safe_naming.1 [("s/_duplicates/b.jpg", 3)] "s/_duplicates"
      "b" ".jpg" 3 0 "s/_duplicates/b_1.jpg" (by decide)
  · exact collision_safe_naming.2.1 envC10 defaultCfg "out" [fC10] ⟨[], 0⟩
      ⟨[], [("keep.jpg", 5)]⟩ ⟨1, 1, 2, 1, 0, []⟩
      ⟨[("Person_1", 1), ("Person_2", 2)], 2⟩
      ⟨["out/Multiple Persons", "out"],
        [("out/Multiple Persons/two.jpg", 9), ("keep.jpg", 5)]⟩
      (by decide) "keep.jpg" 5 (by decide)
  · exact collision_safe_naming.2.2 true ["s"] [gC9] fsC9 [dpB]
      ⟨["s/_duplicates", "s"],
        [("s/_duplicates/b.jpg", 20), ("s/a.jpg", 10), ("k", 5)]⟩
      (by decide) "k" 5 (by decide)

end DupImg
